import Mathlib

/-!
# DDHGCalEEAlgo: layer stack construction and hexagonal wafer tiling

A shallow embedding of `Geometry/HGCalCommonData/plugins/DDHGCalEEAlgo.cc`
(`initialize`, `rMax`, `positionSensitive`, `constructLayers`) together with theorems
about it.

Conventions of the embedding.

* `double` values are exact rationals (`ℚ`): the development is about the
  arithmetic the program denotes, not about rounding.
* `int` values are `Int`; signed overflow is undefined in C++ and is not modelled.
* `std::vector` members are lists.  An element access `v[i]` outside the vector
  is undefined; here it makes the enclosing function return `none`.
* `std::sqrt(3.0)` is irrational.  Every ordinate computed by `positionSensitive`
  is a rational multiple of `sqrt 3` (`R = 2r/sqrt 3 = (2r/3) * sqrt 3`), so
  ordinates are stored as that rational coefficient; the squared distance of the
  point `(x, y * sqrt 3)` from the origin is `x*x + 3*(y*y)`.  Comparisons of a
  square root with a rational are decided on the squares (`sqrtGe`, `sqrtLe`,
  `sqrtLt`); the lemmas `sqrtGe_iff`, `sqrtLe_iff`, `sqrtLt_iff` relate them to
  `Real.sqrt`.
* The calls `cpv.position(...)` and the `edm::LogError` / `edm::LogWarning`
  messages are returned as lists of records, in call order.
* The class declaration `DDHGCalEEAlgo.h` is not among the sources; the member types are
  those implied by `initialize` (`dbl_to_int` results are `std::vector<int>`, the other
  numeric vectors `std::vector<double>`, `copyNumber_` a `std::vector<int>`).
* `cos(CLHEP::pi/sectors_)` is transcendental; its value is the field `cosAlpha` of the
  configuration.
* Statements about radii are made over `ℝ` with `Real.sqrt`; `WellFormed` collects the bounds
  under which every element access of the build is inside its vector.
-/

namespace DDHGCalEEAlgo

/-! ## Data members -/

/-- The data members of `DDHGCalEEAlgo` that `initialize` fills and the build only reads.
`cosAlpha` stands for the value `cos(CLHEP::pi/sectors_)` used by `constructLayers`. -/
structure Config where
  wafers_ : List String
  materials_ : List String
  names_ : List String
  thick_ : List ℚ
  layers_ : List Int
  layerThick_ : List ℚ
  layerType_ : List Int
  layerSense_ : List Int
  zMinBlock_ : ℚ
  rMaxFine_ : ℚ
  rMinThick_ : ℚ
  waferSize_ : ℚ
  waferSepar_ : ℚ
  sectors_ : Int
  cosAlpha : ℚ
  slopeB_ : List ℚ
  slopeT_ : List ℚ
  zFront_ : List ℚ
  rMaxFront_ : List ℚ
  nameSpace_ : String

/-- Element access `v[i]` with an `int` index: `none` when `i` is outside the vector. -/
def idx {α : Type} (xs : List α) (i : Int) : Option α :=
  if 0 ≤ i then xs[i.toNat]? else none

/-- Conversion `(int)x` of a `double`: truncation toward zero. -/
def dblToInt (x : ℚ) : Int :=
  if 0 ≤ x then Int.floor x else Int.ceil x

/-- The values `lo, lo+1, ..., hi` taken by `for (int k = lo; k <= hi; ++k)`. -/
def intRange (lo hi : Int) : List Int :=
  (List.range (hi - lo + 1).toNat).map (fun (k : Nat) => lo + (k : Int))

/-- Decides `sqrt q >= a` for `q >= 0`. -/
def sqrtGe (q a : ℚ) : Bool := decide (a ≤ 0 ∨ a * a ≤ q)

/-- Decides `sqrt q <= b` for `q >= 0`. -/
def sqrtLe (q b : ℚ) : Bool := decide (0 ≤ b ∧ q ≤ b * b)

/-- Decides `sqrt q < b` for `q >= 0`. -/
def sqrtLt (q b : ℚ) : Bool := decide (0 < b ∧ q < b * b)

/-! ## rMax -/

/-- The loop of `rMax`: `n` iterations remain, `k` is the loop index and `r` the value so far.
It is entered with `n = slopeT_.size()`, so `k < slopeT_.size()` holds exactly while `n > 0`. -/
def rMaxLoop (cfg : Config) (z : ℚ) : Nat → Nat → ℚ → Option ℚ
  | 0, _, r => some r
  | n + 1, k, r => do
    let zf ← cfg.zFront_[k]?
    if z < zf then some r
    else do
      let rf ← cfg.rMaxFront_[k]?
      let s ← cfg.slopeT_[k]?
      rMaxLoop cfg z n (k + 1) (rf + (z - zf) * s)

/-- `DDHGCalEEAlgo::rMax`. -/
def rMax (cfg : Config) (z : ℚ) : Option ℚ :=
  rMaxLoop cfg z cfg.slopeT_.length 0 0

/-! ## positionSensitive -/

/-- One call `cpv.position(name, glog.ddname(), copy, tran, rotation)` of `positionSensitive`.
`u`, `v` are the loop indices at the call and `type` the index into `wafers_`; the
translation is `(xpos, ypos * sqrt 3, 0)`. -/
structure WaferPlacement where
  u : Int
  v : Int
  type : Int
  name : String
  copy : Int
  xpos : ℚ
  ypos : ℚ
  deriving DecidableEq

/-- The abscissae `xc[0..5]` of the corners of the hexagon centred at `xpos`. -/
def cornersX (r xpos : ℚ) : List ℚ :=
  [xpos + r, xpos, xpos - r, xpos - r, xpos, xpos + r]

/-- The ordinates `yc[0..5]` of the corners, as coefficients of `sqrt 3`. -/
def cornersY (R ypos : ℚ) : List ℚ :=
  [ypos + 0.5 * R, ypos + R, ypos + 0.5 * R, ypos - 0.5 * R, ypos - R, ypos - 0.5 * R]

/-- The test `rpos >= rin && rpos <= rout` for `rpos = sqrt(x*x + y*y)` at the corner
`(x, y * sqrt 3)`. -/
def cornerIn (rin rout : ℚ) (c : ℚ × ℚ) : Bool :=
  sqrtGe (c.1 * c.1 + 3 * (c.2 * c.2)) rin && sqrtLe (c.1 * c.1 + 3 * (c.2 * c.2)) rout

/-- The loop over the six corners: returns `(cornerOne, cornerAll)`. -/
def cornerLoop (rin rout : ℚ) (cs : List (ℚ × ℚ)) : Bool × Bool :=
  cs.foldl (fun st c => if cornerIn rin rout c then (true, st.2) else (st.1, false))
    (false, true)

/-- The copy number of the hexagon `(u, v)`. -/
def copyId (u v : Int) : Int :=
  let copy := |v| * 100 + |u|
  let copy := if u < 0 then copy + 10000 else copy
  if v < 0 then copy + 100000 else copy

/-- The wafer type chosen for a centre `(xpos, ypos * sqrt 3)`. -/
def waferType (cfg : Config) (layertype : Int) (xpos ypos : ℚ) : Int :=
  let q := xpos * xpos + 3 * (ypos * ypos)
  let type : Int := if sqrtLt q cfg.rMaxFine_ then 0 else (if sqrtLt q cfg.rMinThick_ then 1 else 2)
  if layertype > 1 then type + 3 else type

/-- The body of the double loop of `positionSensitive` at `(u, v)`: the list of the
`cpv.position` calls it makes (none or one). -/
def hexagon (cfg : Config) (rin rout : ℚ) (layertype : Int) (r R dy : ℚ) (u v : Int) :
    Option (List WaferPlacement) :=
  let nr : Int := 2 * v
  let nc : Int := -2 * u + v
  let xpos : ℚ := nc * r
  let ypos : ℚ := nr * dy
  let corners := cornerLoop rin rout ((cornersX r xpos).zip (cornersY R ypos))
  if corners.1 then
    let copy := copyId u v
    if corners.2 then do
      let type := waferType cfg layertype xpos ypos
      let name ← idx cfg.wafers_ type
      some [{ u := u, v := v, type := type, name := name, copy := copy, xpos := xpos, ypos := ypos }]
    else some []
  else some []

/-- Runs `f` on each element in turn and concatenates the outputs; `none` as soon as one
run fails. -/
def collect {α β : Type} (f : α → Option (List β)) : List α → Option (List β)
  | [] => some []
  | a :: as => do
    let x ← f a
    let xs ← collect f as
    some (x ++ xs)

/-- The half pitch `r` of `positionSensitive`. -/
def halfPitch (cfg : Config) : ℚ := 0.5 * (cfg.waferSize_ + cfg.waferSepar_)

/-- The loop bound `N` of `positionSensitive`. -/
def gridBound (cfg : Config) (rout : ℚ) : Int :=
  dblToInt (0.5 * rout / halfPitch cfg) + 2

/-- `DDHGCalEEAlgo::positionSensitive`: the `cpv.position` calls, in order. `R` and `dy`
are the coefficients of `sqrt 3` in `2.0*r/sqrt3` and `0.75*R`. -/
def positionSensitive (cfg : Config) (rin rout : ℚ) (layertype : Int) :
    Option (List WaferPlacement) :=
  let r := halfPitch cfg
  let R := 2.0 * r / 3
  let dy := 0.75 * R
  let N := gridBound cfg rout
  collect (fun u => collect (fun v => hexagon cfg rin rout layertype r R dy u v)
    (intRange (-N) N)) (intRange (-N) N)

/-! ## constructLayers -/

/-- The solid built for a layer: `DDSolidFactory::polyhedra(name, sectors_, -alpha, twopi,
pgonZ, pgonRin, pgonRout)` for an absorber layer, `DDSolidFactory::tubs(name, hthick, rinB,
routF, 0, twopi)` for a sensitive one. -/
inductive Solid where
  | polyhedra (sectors : Int) (pgonZ pgonRin pgonRout : List ℚ)
  | tubs (hthick rin rout : ℚ)
  deriving DecidableEq

/-- The outer radii among the parameters of a solid: `pgonRout` (one entry per section) for a
polyhedra, the single outer radius for a tubs. -/
def Solid.outerRadii : Solid → List ℚ
  | .polyhedra _ _ _ pgonRout => pgonRout
  | .tubs _ _ rout => [rout]

/-- One pass of the layer loop of `constructLayers`: the solid, the wafers placed in it by
`positionSensitive`, and the call `cpv.position(glog, module, copy, (0,0,zz), rot)`.
`block`, `ly`, `ii`, `zi`, `zo`, `routF`, `rinB` are the loop variables at that pass. -/
structure LayerRecord where
  block : Nat
  ly : Int
  ii : Int
  name : String
  material : String
  solid : Solid
  wafers : List WaferPlacement
  copy : Int
  zz : ℚ
  hthick : ℚ
  zi : ℚ
  zo : ℚ
  routF : ℚ
  rinB : ℚ

/-- Severity of a logged message: `edm::LogError` or `edm::LogWarning`. -/
inductive Level where
  | error
  | warning
  deriving DecidableEq

/-- A message logged by the thickness check that ends block `block`. -/
structure Diagnostic where
  level : Level
  block : Nat
  declared : ℚ
  total : ℚ
  deriving DecidableEq

/-- The variables the layer loop leaves behind, and the records it produced. -/
structure LayerLoopResult where
  zz : ℚ
  thickTot : ℚ
  copyNumber : List Int
  records : List LayerRecord

/-- The tolerance `tol` of `constructLayers`. -/
def tol : ℚ := 0.01

/-- The loop `for (int ly = laymin; ly < laymax; ++ly)` of block `i`: `n` passes remain
(`n = laymax - ly`), `zz`, `thickTot` and `copyNumber_` are threaded through. -/
def layerLoop (cfg : Config) (i : Nat) (zi zo routF : ℚ) :
    Nat → Int → ℚ → ℚ → List Int → Option LayerLoopResult
  | 0, _, zz, thickTot, cn =>
    some { zz := zz, thickTot := thickTot, copyNumber := cn, records := [] }
  | n + 1, ly, zz, thickTot, cn => do
    let ii ← idx cfg.layerType_ ly
    let copy ← idx cn ii
    let th ← idx cfg.thick_ ii
    let hthick := 0.5 * th
    let sense ← idx cfg.layerSense_ ly
    let rinB ← if sense = 0 then (cfg.slopeB_[0]?).map (fun s => zo * s)
               else (cfg.slopeB_[1]?).map (fun s => zo * s)
    let zz := zz + hthick
    let thickTot := thickTot + th
    let nm ← idx cfg.names_ ii
    let name := "HGCal" ++ nm ++ toString copy
    let material ← idx cfg.materials_ ii
    let built ← if sense = 0 then
        let rmax := routF * cfg.cosAlpha - tol
        some (Solid.polyhedra cfg.sectors_ [-hthick, hthick] [rinB, rinB] [rmax, rmax], [])
      else (positionSensitive cfg rinB routF sense).map (fun w => (Solid.tubs hthick rinB routF, w))
    let record : LayerRecord :=
      { block := i, ly := ly, ii := ii, name := name, material := material,
        solid := built.1, wafers := built.2, copy := copy, zz := zz, hthick := hthick,
        zi := zi, zo := zo, routF := routF, rinB := rinB }
    let cn := cn.set ii.toNat (copy + 1)
    let zz := zz + hthick
    let rest ← layerLoop cfg i zi zo routF n (ly + 1) zz thickTot cn
    some { rest with records := record :: rest.records }

/-- The thickness check that ends block `i`. -/
def thicknessCheck (i : Nat) (thickTot declared : ℚ) : List Diagnostic :=
  if |thickTot - declared| < 0.00001 then []
  else if thickTot > declared then
    [{ level := .error, block := i, declared := declared, total := thickTot }]
  else if thickTot < declared then
    [{ level := .warning, block := i, declared := declared, total := thickTot }]
  else []

/-- One pass of the loop over blocks: the loop variables of block `block`, the records of its
layers and the messages of its thickness check. -/
structure BlockRecord where
  block : Nat
  zi : ℚ
  zo : ℚ
  routF : ℚ
  laymin : Int
  laymax : Int
  thickTot : ℚ
  layers : List LayerRecord
  diags : List Diagnostic

/-- What `constructLayers` leaves behind: one record per block in order, the final
`copyNumber_`, and the final values of `zi` and `laymin`. -/
structure BuildResult where
  blocks : List BlockRecord
  copyNumber : List Int
  zi : ℚ
  laymin : Int

/-- The layer records of a build, in the order of the `cpv.position` calls. -/
def BuildResult.records (b : BuildResult) : List LayerRecord :=
  b.blocks.flatMap (fun blk => blk.layers)

/-- The messages logged by a build, in order. -/
def BuildResult.diags (b : BuildResult) : List Diagnostic :=
  b.blocks.flatMap (fun blk => blk.diags)

/-- The loop over blocks of `constructLayers`: `n` blocks remain, `i` is the block index
(`n = layers_.size() - i`). -/
def blockLoop (cfg : Config) : Nat → Nat → ℚ → Int → List Int → Option BuildResult
  | 0, _, zi, laymin, cn =>
    some { blocks := [], copyNumber := cn, zi := zi, laymin := laymin }
  | n + 1, i, zi, laymin, cn => do
    let declared ← cfg.layerThick_[i]?
    let zo := zi + declared
    let routF ← rMax cfg zi
    let count ← cfg.layers_[i]?
    let laymax := laymin + count
    let inner ← layerLoop cfg i zi zo routF (laymax - laymin).toNat laymin zi 0 cn
    let blk : BlockRecord :=
      { block := i, zi := zi, zo := zo, routF := routF, laymin := laymin, laymax := laymax,
        thickTot := inner.thickTot, layers := inner.records,
        diags := thicknessCheck i inner.thickTot declared }
    let rest ← blockLoop cfg n (i + 1) zo laymax inner.copyNumber
    some { rest with blocks := blk :: rest.blocks }

/-- `DDHGCalEEAlgo::constructLayers`, started with the counters `copyNumber_ = cn`. -/
def constructLayers (cfg : Config) (cn : List Int) : Option BuildResult :=
  blockLoop cfg cfg.layers_.length 0 cfg.zMinBlock_ 0 cn

/-! ## initialize -/

/-- The arguments read by `initialize`: the entries of `nArgs`, `vArgs` and `vsArgs` under the
keys of the same names. -/
structure Arguments where
  WaferNames : List String
  MaterialNames : List String
  VolumeNames : List String
  Thickness : List ℚ
  Layers : List ℚ
  LayerThick : List ℚ
  LayerType : List ℚ
  LayerSense : List ℚ
  FirstLayer : ℚ
  zMinBlock : ℚ
  rMaxFine : ℚ
  rMinThick : ℚ
  waferSize : ℚ
  SensorSeparation : ℚ
  Sectors : ℚ
  SlopeBottom : List ℚ
  SlopeTop : List ℚ
  ZFront : List ℚ
  RMaxFront : List ℚ

/-- Modelled from the spec: `dbl_to_int` of `DetectorDescription/Core/interface/DDutils.h` is
not among the sources; a floating value given where an integer is required is truncated
toward zero, entry by entry. -/
def dbl_to_int (xs : List ℚ) : List Int := xs.map dblToInt

/-- The loop `for (i = 0; i < materials_.size(); ++i) copyNumber_.emplace_back(1)`: `n` passes
remain. -/
def emplaceLoop : Nat → List Int → List Int
  | 0, cn => cn
  | n + 1, cn => emplaceLoop n (cn ++ [1])

/-- The loop of `initialize` over `i < layerType_.size()` that overrides the counter of the
first sensitive layer: `n` passes remain, `i` is the loop index. -/
def firstLayerLoop (layerType layerSense : List Int) (firstLayer : Int) :
    Nat → Nat → List Int → Option (List Int)
  | 0, _, cn => some cn
  | n + 1, i, cn => do
    let s ← layerSense[i]?
    if s ≠ 0 then do
      let ii ← layerType[i]?
      let _ ← idx cn ii
      some (cn.set ii.toNat firstLayer)
    else firstLayerLoop layerType layerSense firstLayer n (i + 1) cn

/-- The data members after `initialize`: the configuration read by the build, `firstLayer_`
and the counters `copyNumber_`. -/
structure Members where
  cfg : Config
  firstLayer_ : Int
  copyNumber_ : List Int

/-- `DDHGCalEEAlgo::initialize` on a freshly constructed object (all vectors empty); the
name is respelt because the source's name is reserved in Lean.
`nameSpace` is the value of `DDCurrentNamespace::ns()` and `cosAlpha` the value of
`cos(CLHEP::pi/sectors_)` for the sector count read here. -/
def initialise (nameSpace : String) (cosAlpha : ℚ) (a : Arguments) : Option Members := do
  let materials := a.MaterialNames
  let copyNumber := emplaceLoop materials.length []
  let layerType := dbl_to_int a.LayerType
  let layerSense := dbl_to_int a.LayerSense
  let firstLayer := dblToInt a.FirstLayer
  let copyNumber ← if firstLayer > 0 then
      firstLayerLoop layerType layerSense firstLayer layerType.length 0 copyNumber
    else some copyNumber
  some
    { cfg :=
        { wafers_ := a.WaferNames, materials_ := materials, names_ := a.VolumeNames,
          thick_ := a.Thickness, layers_ := dbl_to_int a.Layers, layerThick_ := a.LayerThick,
          layerType_ := layerType, layerSense_ := layerSense, zMinBlock_ := a.zMinBlock,
          rMaxFine_ := a.rMaxFine, rMinThick_ := a.rMinThick, waferSize_ := a.waferSize,
          waferSepar_ := a.SensorSeparation, sectors_ := dblToInt a.Sectors,
          cosAlpha := cosAlpha, slopeB_ := a.SlopeBottom, slopeT_ := a.SlopeTop,
          zFront_ := a.ZFront, rMaxFront_ := a.RMaxFront, nameSpace_ := nameSpace },
      firstLayer_ := firstLayer,
      copyNumber_ := copyNumber }

/-! ## Notions used to state the properties -/

/-- The six corners of the hexagon `(u, v)` for half pitch `r`, as computed by the loop body. -/
def hexCorners (r : ℚ) (u v : Int) : List (ℚ × ℚ) :=
  (cornersX r (((-2 * u + v : Int) : ℚ) * r)).zip
    (cornersY (2.0 * r / 3) (((2 * v : Int) : ℚ) * (0.75 * (2.0 * r / 3))))

/-- The radius `sqrt(x*x + y*y)` of the corner `(c.1, c.2 * sqrt 3)` lies in `[rin, rout]`. -/
def CornerInRange (rin rout : ℚ) (c : ℚ × ℚ) : Prop :=
  (rin : ℝ) ≤ Real.sqrt ((c.1 : ℝ) ^ 2 + ((c.2 : ℝ) * Real.sqrt 3) ^ 2) ∧
    Real.sqrt ((c.1 : ℝ) ^ 2 + ((c.2 : ℝ) * Real.sqrt 3) ^ 2) ≤ (rout : ℝ)

/-- The placements made by the loop body at `(u, v)` (empty when the body fails). -/
def cell (cfg : Config) (rin rout : ℚ) (layertype : Int) (u v : Int) : List WaferPlacement :=
  (hexagon cfg rin rout layertype (halfPitch cfg) (2.0 * halfPitch cfg / 3)
    (0.75 * (2.0 * halfPitch cfg / 3)) u v).getD []

/-- The thickness `thick_[layerType_[ly]]` of layer `ly` (0 when an index is out of range). -/
def thickAt (cfg : Config) (ly : Int) : ℚ :=
  ((idx cfg.layerType_ ly).bind (idx cfg.thick_)).getD 0

/-- The sum of the thicknesses of the `n` layers `ly, ly+1, ..., ly+n-1`. -/
def layerSum (cfg : Config) (ly : Int) (n : Nat) : ℚ :=
  ((List.range n).map (fun (j : Nat) => thickAt cfg (ly + (j : Int)))).sum

/-- The index `L_i` of the first layer of block `i`: the sum of the layer counts of the
earlier blocks. -/
def firstLayerOf (cfg : Config) (i : Nat) : Int := (cfg.layers_.take i).sum

/-- The front position `z_front(i)` of block `i`: `zMinBlock_` plus the declared thicknesses
of the earlier blocks. -/
def zFrontOf (cfg : Config) (i : Nat) : ℚ := cfg.zMinBlock_ + (cfg.layerThick_.take i).sum

/-- The well-formedness of the configuration and of the counters `cn`: layer counts are
non-negative, every vector is long enough for the indices the build uses, and every material
type indexes `thick_`, `names_`, `materials_` and the counters, which have a common length. -/
def WellFormed (cfg : Config) (cn : List Int) : Prop :=
  (∀ c ∈ cfg.layers_, 0 ≤ c) ∧
  cfg.layers_.length ≤ cfg.layerThick_.length ∧
  cfg.layers_.sum ≤ cfg.layerType_.length ∧
  cfg.layers_.sum ≤ cfg.layerSense_.length ∧
  (∀ t ∈ cfg.layerType_, 0 ≤ t ∧ t < cfg.thick_.length) ∧
  cfg.names_.length = cfg.thick_.length ∧
  cfg.materials_.length = cfg.thick_.length ∧
  cn.length = cfg.thick_.length ∧
  2 ≤ cfg.slopeB_.length ∧
  cfg.slopeT_.length ≤ cfg.zFront_.length ∧
  cfg.slopeT_.length ≤ cfg.rMaxFront_.length ∧
  6 ≤ cfg.wafers_.length

instance (cfg : Config) (cn : List Int) : Decidable (WellFormed cfg cn) := by
  unfold WellFormed
  infer_instance

/-- The counters evolve from `cn` to `cn'` along the records `rs`: each record carries the
value its counter `copyNumber_[ii]` holds when the layer is placed, after which that counter,
and no other, is replaced by the value plus one. -/
def CopyTrace : List Int → List LayerRecord → List Int → Prop
  | cn, [], cn' => cn' = cn
  | cn, r :: rs, cn' =>
    idx cn r.ii = some r.copy ∧ CopyTrace (cn.set r.ii.toNat (r.copy + 1)) rs cn'

/-- What a layer record of block `i` holds, in terms of the loop variables of the block. -/
def LayerFacts (cfg : Config) (i : Nat) (zi zo routF : ℚ) (r : LayerRecord) : Prop :=
  r.block = i ∧ r.zi = zi ∧ r.zo = zo ∧ r.routF = routF ∧
  idx cfg.layerType_ r.ly = some r.ii ∧
  idx cfg.thick_ r.ii = some (2 * r.hthick) ∧
  ∃ s sB, idx cfg.layerSense_ r.ly = some s ∧
    cfg.slopeB_[if s = 0 then 0 else 1]? = some sB ∧ r.rinB = zo * sB ∧
    (s = 0 → r.wafers = [] ∧
      r.solid = Solid.polyhedra cfg.sectors_ [-r.hthick, r.hthick] [r.rinB, r.rinB]
        [routF * cfg.cosAlpha - tol, routF * cfg.cosAlpha - tol]) ∧
    (s ≠ 0 → positionSensitive cfg r.rinB routF s = some r.wafers ∧
      r.solid = Solid.tubs r.hthick r.rinB routF)

/-- What the record of block `k` holds, in terms of the configuration. -/
def BlockFacts (cfg : Config) (k : Nat) (b : BlockRecord) : Prop :=
  b.block = k ∧ b.zi = zFrontOf cfg k ∧ b.laymin = firstLayerOf cfg k ∧
  rMax cfg b.zi = some b.routF ∧
  (∃ d, cfg.layerThick_[k]? = some d ∧ b.zo = b.zi + d ∧
    b.diags = thicknessCheck k b.thickTot d) ∧
  (∃ c, cfg.layers_[k]? = some c ∧ 0 ≤ c ∧ b.laymax = b.laymin + c ∧
    b.layers.map (fun r => r.ly) = (List.range c.toNat).map (fun (j : Nat) => b.laymin + (j : Int)) ∧
    b.thickTot = layerSum cfg b.laymin c.toNat) ∧
  (∀ (j : Nat) (r : LayerRecord), b.layers[j]? = some r →
    r.zz = b.zi + layerSum cfg b.laymin j + r.hthick) ∧
  ∀ r ∈ b.layers, LayerFacts cfg k b.zi b.zo b.routF r

/-- The coordinate pairs `(u, v)` visited by the double loop
`for (u = -N; u <= N; ++u) for (v = -N; v <= N; ++v)`, in order. -/
def gridPairs (N : Int) : List (Int × Int) :=
  (intRange (-N) N).flatMap (fun u => (intRange (-N) N).map (fun v => (u, v)))

/-- The centre `(xpos, ypos)` computed by the loop body at `(u, v)` for half pitch `r`, the
ordinate as a coefficient of `sqrt 3`. -/
def centre (r : ℚ) (u v : Int) : ℚ × ℚ :=
  (((-2 * u + v : Int) : ℚ) * r, ((2 * v : Int) : ℚ) * (0.75 * (2.0 * r / 3)))

/-! ## Concrete configurations -/

/-- A configuration with wafer size 10 and sensor separation 0.5 (half pitch 5.25), six wafer
names, one block of two layers (an absorber and a sensitive layer of thickness 0.1 each,
declared block thickness 0.2) starting at z = 320, and a constant envelope of radius 300. -/
def scenario : Config where
  wafers_ := ["w0", "w1", "w2", "w3", "w4", "w5"]
  materials_ := ["Lead", "Silicon"]
  names_ := ["Absorber", "Sensitive"]
  thick_ := [0.1, 0.1]
  layers_ := [2]
  layerThick_ := [0.2]
  layerType_ := [0, 1]
  layerSense_ := [0, 1]
  zMinBlock_ := 320
  rMaxFine_ := 150
  rMinThick_ := 200
  waferSize_ := 10
  waferSepar_ := 0.5
  sectors_ := 3
  cosAlpha := 0.5
  slopeB_ := [0, 0.3125]
  slopeT_ := [0]
  zFront_ := [0]
  rMaxFront_ := [300]
  nameSpace_ := "hgcal"

/-- The configuration `scenario` with wafer size 2 and no separation (half pitch 1). -/
def fineGrid : Config := { scenario with waferSize_ := 2, waferSepar_ := 0 }

/-- The configuration `scenario` with an envelope of two breakpoints, at z = 300 (radius 100,
slope 1) and at z = 350 (radius 150, slope 0.5). -/
def twoSlopes : Config :=
  { scenario with zFront_ := [300, 350], rMaxFront_ := [100, 150], slopeT_ := [1, 0.5] }


/-- Arguments for two material types and three layers, the second and third sensitive, with
`FirstLayer` 5. -/
def sampleArguments : Arguments where
  WaferNames := ["w0", "w1", "w2", "w3", "w4", "w5"]
  MaterialNames := ["Lead", "Silicon"]
  VolumeNames := ["Absorber", "Sensitive"]
  Thickness := [0.1, 0.1]
  Layers := [3]
  LayerThick := [0.3]
  LayerType := [0, 1, 1]
  LayerSense := [0, 1, 1]
  FirstLayer := 5
  zMinBlock := 320
  rMaxFine := 150
  rMinThick := 200
  waferSize := 10
  SensorSeparation := 0.5
  Sectors := 3
  SlopeBottom := [0, 0.3125]
  SlopeTop := [0]
  ZFront := [0]
  RMaxFront := [300]

/-- The configuration `twoSlopes` with its two breakpoints exchanged, so that `zFront_` is not
sorted. -/
def unsortedSlopes : Config :=
  { scenario with zFront_ := [350, 300], rMaxFront_ := [150, 100], slopeT_ := [0.5, 1] }

/-- The configuration `scenario` with layers of thickness 0.15: the block total 0.3 is 0.1
above the declared thickness 0.2. -/
def thickLayers : Config := { scenario with thick_ := [0.15, 0.15] }

/-- The arguments `sampleArguments` with `FirstLayer` 0.9. -/
def smallFirstLayer : Arguments := { sampleArguments with FirstLayer := 0.9 }

/-- The arguments `sampleArguments` with `FirstLayer` 2.9. -/
def fractionalFirstLayer : Arguments := { sampleArguments with FirstLayer := 2.9 }

/-! ## Square roots and the corner test -/

theorem sqrtGe_iff (q a : ℚ) (hq : 0 ≤ q) :
    sqrtGe q a = true ↔ (a : ℝ) ≤ Real.sqrt (q : ℝ) := by
  have hq' : (0 : ℝ) ≤ (q : ℝ) := by exact_mod_cast hq
  unfold sqrtGe
  rw [decide_eq_true_iff]
  constructor
  · rintro (h | h)
    · have : (a : ℝ) ≤ 0 := by exact_mod_cast h
      exact this.trans (Real.sqrt_nonneg _)
    · have h' : (a : ℝ) * a ≤ q := by exact_mod_cast h
      exact Real.le_sqrt_of_sq_le (by nlinarith)
  · intro h
    by_cases ha : a ≤ 0
    · exact Or.inl ha
    · right
      push_neg at ha
      have ha' : (0 : ℝ) < a := by exact_mod_cast ha
      have := (Real.le_sqrt' ha').1 h
      have h2 : (a : ℝ) * a ≤ q := by nlinarith
      exact_mod_cast h2

theorem sqrtLe_iff (q b : ℚ) (hq : 0 ≤ q) :
    sqrtLe q b = true ↔ Real.sqrt (q : ℝ) ≤ (b : ℝ) := by
  have hq' : (0 : ℝ) ≤ (q : ℝ) := by exact_mod_cast hq
  unfold sqrtLe
  rw [decide_eq_true_iff]
  constructor
  · rintro ⟨h0, h⟩
    have h0' : (0 : ℝ) ≤ b := by exact_mod_cast h0
    have h' : (q : ℝ) ≤ b * b := by exact_mod_cast h
    exact (Real.sqrt_le_left h0').2 (by nlinarith)
  · intro h
    have h0' : (0 : ℝ) ≤ b := (Real.sqrt_nonneg _).trans h
    have := (Real.sqrt_le_left h0').1 h
    refine ⟨by exact_mod_cast h0', ?_⟩
    have h2 : (q : ℝ) ≤ b * b := by nlinarith
    exact_mod_cast h2

theorem sqrtLt_iff (q b : ℚ) (hq : 0 ≤ q) :
    sqrtLt q b = true ↔ Real.sqrt (q : ℝ) < (b : ℝ) := by
  have hq' : (0 : ℝ) ≤ (q : ℝ) := by exact_mod_cast hq
  unfold sqrtLt
  rw [decide_eq_true_iff]
  constructor
  · rintro ⟨h0, h⟩
    have h0' : (0 : ℝ) < b := by exact_mod_cast h0
    have h' : (q : ℝ) < b * b := by exact_mod_cast h
    exact (Real.sqrt_lt' h0').2 (by nlinarith)
  · intro h
    have h0' : (0 : ℝ) < b := lt_of_le_of_lt (Real.sqrt_nonneg _) h
    have := (Real.sqrt_lt' h0').1 h
    refine ⟨by exact_mod_cast h0', ?_⟩
    have h2 : (q : ℝ) < b * b := by nlinarith
    exact_mod_cast h2

theorem sqDist_cast (x y : ℚ) :
    ((x * x + 3 * (y * y) : ℚ) : ℝ) = (x : ℝ) ^ 2 + ((y : ℝ) * Real.sqrt 3) ^ 2 := by
  have h3 : Real.sqrt 3 ^ 2 = 3 := Real.sq_sqrt (by norm_num)
  push_cast
  rw [mul_pow, h3]
  ring

theorem sqDist_nonneg (x y : ℚ) : 0 ≤ x * x + 3 * (y * y) := by
  nlinarith [mul_self_nonneg x, mul_self_nonneg y]

theorem cornerLoop_foldl (rin rout : ℚ) (cs : List (ℚ × ℚ)) (a b : Bool) :
    cs.foldl (fun st c => if cornerIn rin rout c then (true, st.2) else (st.1, false)) (a, b)
      = (a || cs.any (cornerIn rin rout), b && cs.all (cornerIn rin rout)) := by
  induction cs generalizing a b with
  | nil => simp
  | cons c cs ih =>
    simp only [List.foldl_cons, List.any_cons, List.all_cons]
    by_cases h : cornerIn rin rout c = true
    · simp [h, ih]
    · simp only [Bool.not_eq_true] at h
      simp [h, ih]

theorem cornerLoop_eq (rin rout : ℚ) (cs : List (ℚ × ℚ)) :
    cornerLoop rin rout cs = (cs.any (cornerIn rin rout), cs.all (cornerIn rin rout)) := by
  unfold cornerLoop
  rw [cornerLoop_foldl]
  simp

theorem waferType_range (cfg : Config) (layertype : Int) (x y : ℚ) :
    0 ≤ waferType cfg layertype x y ∧ waferType cfg layertype x y ≤ 5 := by
  unfold waferType
  simp only
  split_ifs <;> omega

theorem idx_isSome {α : Type} (xs : List α) (i : Int) (h0 : 0 ≤ i) (h1 : i < xs.length) :
    ∃ a, idx xs i = some a := by
  unfold idx
  rw [if_pos h0]
  have : i.toNat < xs.length := by omega
  exact ⟨xs[i.toNat], List.getElem?_eq_getElem this⟩

theorem cornerIn_iff (rin rout : ℚ) (c : ℚ × ℚ) :
    cornerIn rin rout c = true ↔ CornerInRange rin rout c := by
  unfold cornerIn CornerInRange
  rw [Bool.and_eq_true, sqrtGe_iff _ _ (sqDist_nonneg _ _), sqrtLe_iff _ _ (sqDist_nonneg _ _),
    sqDist_cast]

theorem hexagon_eq (cfg : Config) (rin rout : ℚ) (layertype : Int) (r : ℚ) (u v : Int)
    (hw : 6 ≤ cfg.wafers_.length) :
    ∃ name, idx cfg.wafers_ (waferType cfg layertype (((-2 * u + v : Int) : ℚ) * r)
             (((2 * v : Int) : ℚ) * (0.75 * (2.0 * r / 3)))) = some name ∧
      hexagon cfg rin rout layertype r (2.0 * r / 3) (0.75 * (2.0 * r / 3)) u v =
      some (if (hexCorners r u v).all (cornerIn rin rout) = true then
        [{ u := u, v := v,
           type := waferType cfg layertype (((-2 * u + v : Int) : ℚ) * r)
             (((2 * v : Int) : ℚ) * (0.75 * (2.0 * r / 3))),
           name := name, copy := copyId u v,
           xpos := ((-2 * u + v : Int) : ℚ) * r,
           ypos := ((2 * v : Int) : ℚ) * (0.75 * (2.0 * r / 3)) }]
        else []) := by
  obtain ⟨h0, h5⟩ := waferType_range cfg layertype (((-2 * u + v : Int) : ℚ) * r)
    (((2 * v : Int) : ℚ) * (0.75 * (2.0 * r / 3)))
  obtain ⟨name, hname⟩ := idx_isSome cfg.wafers_ _ h0 (by omega)
  refine ⟨name, hname, ?_⟩
  unfold hexagon
  simp only [cornerLoop_eq]
  change (if ((hexCorners r u v).any (cornerIn rin rout)) = true then _ else _) = _
  by_cases hall : (hexCorners r u v).all (cornerIn rin rout) = true
  · have hany : (hexCorners r u v).any (cornerIn rin rout) = true := by
      obtain ⟨c, cs, hc⟩ : ∃ c cs, hexCorners r u v = c :: cs := ⟨_, _, rfl⟩
      rw [hc, List.all_cons, Bool.and_eq_true] at hall
      rw [hc, List.any_cons, hall.1, Bool.true_or]
    rw [if_pos hany]
    change (if ((hexCorners r u v).all (cornerIn rin rout)) = true then _ else _) = _
    rw [if_pos hall, if_pos hall, hname]
    rfl
  · rw [if_neg hall]
    split
    · change (if ((hexCorners r u v).all (cornerIn rin rout)) = true then _ else _) = _
      rw [if_neg hall]
    · rfl

theorem collect_eq {α β : Type} (f : α → Option (List β)) (l : List α)
    (h : ∀ a ∈ l, ∃ x, f a = some x) :
    collect f l = some (l.flatMap (fun a => (f a).getD [])) := by
  induction l with
  | nil => rfl
  | cons a l ih =>
    obtain ⟨x, hx⟩ := h a (List.mem_cons_self _ _)
    have ih' := ih (fun b hb => h b (List.mem_cons_of_mem _ hb))
    simp [collect, hx, ih']

theorem mem_intRange (lo hi x : Int) : x ∈ intRange lo hi ↔ lo ≤ x ∧ x ≤ hi := by
  unfold intRange
  simp only [List.mem_map, List.mem_range]
  constructor
  · rintro ⟨k, hk, rfl⟩
    omega
  · rintro ⟨h1, h2⟩
    exact ⟨(x - lo).toNat, by omega, by omega⟩

theorem nodup_intRange (lo hi : Int) : (intRange lo hi).Nodup := by
  unfold intRange
  apply List.Nodup.map _ (List.nodup_range _)
  intro a b h
  simp only at h
  omega

theorem countP_flatMap_single {α β : Type} [DecidableEq α] (p : β → Bool) (g : α → List β)
    (a0 : α) (l : List α) (hl : l.Nodup)
    (hg : ∀ a, a ≠ a0 → ∀ b ∈ g a, p b = false) :
    (l.flatMap g).countP p = if a0 ∈ l then (g a0).countP p else 0 := by
  induction l with
  | nil => simp
  | cons a l ih =>
    rw [List.nodup_cons] at hl
    simp only [List.flatMap_cons, List.countP_append, ih hl.2, List.mem_cons]
    by_cases ha : a = a0
    · subst ha
      simp [hl.1]
    · have h0 : (g a).countP p = 0 := by
        rw [List.countP_eq_zero]
        intro b hb
        simp [hg a ha b hb]
      have : ¬ a0 = a := fun h => ha h.symm
      simp [h0, this]

theorem cell_eq (cfg : Config) (rin rout : ℚ) (layertype : Int) (u v : Int)
    (hw : 6 ≤ cfg.wafers_.length) :
    ∃ name, idx cfg.wafers_ (waferType cfg layertype (((-2 * u + v : Int) : ℚ) * halfPitch cfg)
             (((2 * v : Int) : ℚ) * (0.75 * (2.0 * halfPitch cfg / 3)))) = some name ∧
      cell cfg rin rout layertype u v =
      (if (hexCorners (halfPitch cfg) u v).all (cornerIn rin rout) = true then
        [{ u := u, v := v,
           type := waferType cfg layertype (((-2 * u + v : Int) : ℚ) * halfPitch cfg)
             (((2 * v : Int) : ℚ) * (0.75 * (2.0 * halfPitch cfg / 3))),
           name := name, copy := copyId u v,
           xpos := ((-2 * u + v : Int) : ℚ) * halfPitch cfg,
           ypos := ((2 * v : Int) : ℚ) * (0.75 * (2.0 * halfPitch cfg / 3)) }]
        else []) := by
  obtain ⟨name, hn, h⟩ := hexagon_eq cfg rin rout layertype (halfPitch cfg) u v hw
  exact ⟨name, hn, by rw [cell, h]; rfl⟩

theorem positionSensitive_eq (cfg : Config) (rin rout : ℚ) (layertype : Int)
    (hw : 6 ≤ cfg.wafers_.length) :
    positionSensitive cfg rin rout layertype =
      some ((intRange (-gridBound cfg rout) (gridBound cfg rout)).flatMap fun u =>
        (intRange (-gridBound cfg rout) (gridBound cfg rout)).flatMap fun v =>
          cell cfg rin rout layertype u v) := by
  have hin : ∀ (u : Int) (l : List Int),
      collect (fun v => hexagon cfg rin rout layertype (halfPitch cfg) (2.0 * halfPitch cfg / 3)
        (0.75 * (2.0 * halfPitch cfg / 3)) u v) l
        = some (l.flatMap fun v => cell cfg rin rout layertype u v) := by
    intro u l
    rw [collect_eq]
    · rfl
    · intro v _
      obtain ⟨name, _, h⟩ := hexagon_eq cfg rin rout layertype (halfPitch cfg) u v hw
      exact ⟨_, h⟩
  unfold positionSensitive
  simp only
  rw [collect_eq]
  · congr 1
    apply List.flatMap_congr
    intro u _
    rw [hin]
    rfl
  · intro u _
    exact ⟨_, hin u _⟩

theorem cell_mem (cfg : Config) (rin rout : ℚ) (layertype : Int) (u v : Int)
    (hw : 6 ≤ cfg.wafers_.length) (p : WaferPlacement) (hp : p ∈ cell cfg rin rout layertype u v) :
    p.u = u ∧ p.v = v ∧ (hexCorners (halfPitch cfg) u v).all (cornerIn rin rout) = true ∧
      p.copy = copyId u v ∧ p.xpos = ((-2 * u + v : Int) : ℚ) * halfPitch cfg ∧
      p.ypos = ((2 * v : Int) : ℚ) * (0.75 * (2.0 * halfPitch cfg / 3)) ∧
      p.type = waferType cfg layertype p.xpos p.ypos ∧
      idx cfg.wafers_ p.type = some p.name := by
  obtain ⟨name, hn, h⟩ := cell_eq cfg rin rout layertype u v hw
  rw [h] at hp
  split_ifs at hp with hall
  · simp only [List.mem_singleton] at hp
    subst hp
    exact ⟨rfl, rfl, hall, rfl, rfl, rfl, rfl, hn⟩
  · simp at hp

theorem mem_positionSensitive (cfg : Config) (rin rout : ℚ) (layertype : Int)
    (hw : 6 ≤ cfg.wafers_.length) (out : List WaferPlacement)
    (hout : positionSensitive cfg rin rout layertype = some out) (p : WaferPlacement) :
    p ∈ out ↔ ∃ u v : Int, |u| ≤ gridBound cfg rout ∧ |v| ≤ gridBound cfg rout ∧
      p ∈ cell cfg rin rout layertype u v := by
  rw [positionSensitive_eq cfg rin rout layertype hw] at hout
  injection hout with hout
  subst hout
  simp only [List.mem_flatMap, mem_intRange, abs_le]
  constructor
  · rintro ⟨u, hu, v, hv, h⟩
    exact ⟨u, v, hu, hv, h⟩
  · rintro ⟨u, v, hu, hv, h⟩
    exact ⟨u, hu, v, hv, h⟩

theorem countP_positionSensitive (cfg : Config) (rin rout : ℚ) (layertype : Int)
    (hw : 6 ≤ cfg.wafers_.length) (u v : Int)
    (hu : |u| ≤ gridBound cfg rout) (hv : |v| ≤ gridBound cfg rout) :
    ∃ out, positionSensitive cfg rin rout layertype = some out ∧
      out.countP (fun p => decide (p.u = u ∧ p.v = v)) =
        if (hexCorners (halfPitch cfg) u v).all (cornerIn rin rout) = true then 1 else 0 := by
  refine ⟨_, positionSensitive_eq cfg rin rout layertype hw, ?_⟩
  rw [countP_flatMap_single _ _ u _ (nodup_intRange _ _)]
  · rw [if_pos ((mem_intRange _ _ _).2 (abs_le.1 hu))]
    rw [countP_flatMap_single _ _ v _ (nodup_intRange _ _)]
    · rw [if_pos ((mem_intRange _ _ _).2 (abs_le.1 hv))]
      obtain ⟨name, _, h⟩ := cell_eq cfg rin rout layertype u v hw
      rw [h]
      split_ifs <;> simp
    · intro v' hv' p hp
      have := cell_mem cfg rin rout layertype u v' hw p hp
      simp only [decide_eq_false_iff_not, not_and]
      intro _ h
      exact hv' (this.2.1 ▸ h)
  · intro u' hu' p hp
    obtain ⟨v', _, hp'⟩ := List.mem_flatMap.1 hp
    have := cell_mem cfg rin rout layertype u' v' hw p hp'
    simp only [decide_eq_false_iff_not, not_and]
    intro h
    exact absurd (this.1 ▸ h) hu'

theorem all_cornerIn_iff (rin rout : ℚ) (cs : List (ℚ × ℚ)) :
    cs.all (cornerIn rin rout) = true ↔ ∀ c ∈ cs, CornerInRange rin rout c := by
  rw [List.all_eq_true]
  exact forall₂_congr fun c _ => cornerIn_iff rin rout c

/-- C1: for every grid coordinate `(u, v)` inside the enumerated range, `positionSensitive`
places exactly one wafer for `(u, v)` when all six corner radii of its hexagon lie in
`[rin, rout]` and none otherwise (so neither a partially contained hexagon nor one with no
corner in range is placed). -/
theorem positionSensitive_places_iff_all_corners (cfg : Config) (rin rout : ℚ) (layertype : Int)
    (hw : 6 ≤ cfg.wafers_.length) (_hr : 0 < halfPitch cfg) (u v : Int)
    (hu : |u| ≤ gridBound cfg rout) (hv : |v| ≤ gridBound cfg rout) :
    ∃ out, positionSensitive cfg rin rout layertype = some out ∧
      ((∀ c ∈ hexCorners (halfPitch cfg) u v, CornerInRange rin rout c) →
        out.countP (fun p => decide (p.u = u ∧ p.v = v)) = 1) ∧
      (¬ (∀ c ∈ hexCorners (halfPitch cfg) u v, CornerInRange rin rout c) →
        out.countP (fun p => decide (p.u = u ∧ p.v = v)) = 0) := by
  obtain ⟨out, hout, hc⟩ := countP_positionSensitive cfg rin rout layertype hw u v hu hv
  refine ⟨out, hout, ?_, ?_⟩
  · intro h
    rw [hc, if_pos ((all_cornerIn_iff _ _ _).2 h)]
  · intro h
    rw [hc, if_neg (fun h' => h ((all_cornerIn_iff _ _ _).1 h'))]

/-! ## The tiling of a sensitive layer -/

theorem scenario_halfPitch : halfPitch scenario = 21 / 4 := by
  norm_num [halfPitch, scenario]

theorem scenario_gridBound : gridBound scenario 300 = 30 := by
  have h : (0.5 * 300 / halfPitch scenario : ℚ) = 200 / 7 := by
    rw [scenario_halfPitch]; norm_num
  have hf : Int.floor (200 / 7 : ℚ) = 28 := by
    rw [Int.floor_eq_iff]; norm_num
  unfold gridBound dblToInt
  rw [h, if_pos (by norm_num), hf]
  rfl


theorem fineGrid_halfPitch : halfPitch fineGrid = 1 := by
  norm_num [halfPitch, fineGrid]

theorem fineGrid_gridBound : gridBound fineGrid 250 = 127 := by
  have h : (0.5 * 250 / halfPitch fineGrid : ℚ) = ((125 : ℤ) : ℚ) := by
    rw [fineGrid_halfPitch]; norm_num
  unfold gridBound dblToInt
  rw [h, if_pos (by norm_num), Int.floor_intCast]
  rfl

theorem copyId_injective (u v u' v' : Int) (hu : |u| ≤ 99) (hv : |v| ≤ 99)
    (hu' : |u'| ≤ 99) (hv' : |v'| ≤ 99) (h : copyId u v = copyId u' v') :
    u = u' ∧ v = v' := by
  unfold copyId at h
  simp only at h
  rcases abs_cases u with ⟨h1, h2⟩ | ⟨h1, h2⟩ <;>
  rcases abs_cases v with ⟨h3, h4⟩ | ⟨h3, h4⟩ <;>
  rcases abs_cases u' with ⟨h5, h6⟩ | ⟨h5, h6⟩ <;>
  rcases abs_cases v' with ⟨h7, h8⟩ | ⟨h7, h8⟩ <;>
  rw [h1, h3] at h <;> rw [h5, h7] at h <;>
  rw [h1] at hu <;> rw [h3] at hv <;> rw [h5] at hu' <;> rw [h7] at hv' <;>
  split_ifs at h <;> omega


/-- Witness of `positionSensitive_places_iff_all_corners` at the hexagon `(0, 0)` of `scenario`. -/
theorem positionSensitive_places_iff_all_corners_witness :
    ∃ out, positionSensitive scenario 100 300 1 = some out ∧
      ((∀ c ∈ hexCorners (halfPitch scenario) 0 0, CornerInRange 100 300 c) →
        out.countP (fun p => decide (p.u = 0 ∧ p.v = 0)) = 1) ∧
      (¬ (∀ c ∈ hexCorners (halfPitch scenario) 0 0, CornerInRange 100 300 c) →
        out.countP (fun p => decide (p.u = 0 ∧ p.v = 0)) = 0) :=
  positionSensitive_places_iff_all_corners scenario 100 300 1 (by decide)
    (by rw [scenario_halfPitch]; norm_num) 0 0
    (by rw [scenario_gridBound]; norm_num) (by rw [scenario_gridBound]; norm_num)

/-- C2 (evaluation at a failing input): with wafer size 10, separation 0.5, `rin = 100` and
`rout = 300` the loop bound is `N = 30`; the hexagon `(u, v) = (16, 32)` has all six corner
radii in `[100, 300]`, yet `positionSensitive` places no wafer for it. -/
theorem positionSensitive_misses_fitting_hexagon :
    (∀ c ∈ hexCorners (halfPitch scenario) 16 32, CornerInRange 100 300 c) ∧
    ∃ out, positionSensitive scenario 100 300 1 = some out ∧
      out.countP (fun p => decide (p.u = 16 ∧ p.v = 32)) = 0 := by
  constructor
  · rw [← all_cornerIn_iff, scenario_halfPitch]
    norm_num [hexCorners, cornersX, cornersY, cornerIn, sqrtGe, sqrtLe]
  · refine ⟨_, positionSensitive_eq scenario 100 300 1 (by decide), ?_⟩
    rw [List.countP_eq_zero]
    intro p hp
    have hmem := (mem_positionSensitive scenario 100 300 1 (by decide) _
      (positionSensitive_eq scenario 100 300 1 (by decide)) p).1 hp
    obtain ⟨u, v, _, hv, hc⟩ := hmem
    have := cell_mem scenario 100 300 1 u v (by decide) p hc
    rw [scenario_gridBound] at hv
    simp only [decide_eq_true_eq, not_and]
    intro _ h32
    rw [this.2.1] at h32
    rw [h32] at hv
    norm_num at hv


/-- C3 (counterexample): with half pitch 1, `rin = 0` and `rout = 250` one call places the
hexagons `(100, 0)` and `(0, 1)`, and both carry the copy number 100. -/
theorem positionSensitive_copy_collision :
    ∃ out p q, positionSensitive fineGrid 0 250 1 = some out ∧ p ∈ out ∧ q ∈ out ∧
      (p.u, p.v) = (100, 0) ∧ (q.u, q.v) = (0, 1) ∧ p.copy = q.copy := by
  have hw : 6 ≤ fineGrid.wafers_.length := by decide
  obtain ⟨n1, _, h1⟩ := cell_eq fineGrid 0 250 1 100 0 hw
  obtain ⟨n2, _, h2⟩ := cell_eq fineGrid 0 250 1 0 1 hw
  have a1 : (hexCorners (halfPitch fineGrid) 100 0).all (cornerIn 0 250) = true := by
    rw [fineGrid_halfPitch]
    norm_num [hexCorners, cornersX, cornersY, cornerIn, sqrtGe, sqrtLe]
  have a2 : (hexCorners (halfPitch fineGrid) 0 1).all (cornerIn 0 250) = true := by
    rw [fineGrid_halfPitch]
    norm_num [hexCorners, cornersX, cornersY, cornerIn, sqrtGe, sqrtLe]
  rw [if_pos a1] at h1
  rw [if_pos a2] at h2
  have hout := positionSensitive_eq fineGrid 0 250 1 hw
  obtain ⟨p, hp⟩ : ∃ p, p ∈ cell fineGrid 0 250 1 100 0 :=
    ⟨_, by rw [h1]; exact List.mem_singleton_self _⟩
  obtain ⟨q, hq⟩ : ∃ q, q ∈ cell fineGrid 0 250 1 0 1 :=
    ⟨_, by rw [h2]; exact List.mem_singleton_self _⟩
  have fp := cell_mem fineGrid 0 250 1 100 0 hw p hp
  have fq := cell_mem fineGrid 0 250 1 0 1 hw q hq
  refine ⟨_, p, q, hout, ?_, ?_, ?_, ?_, ?_⟩
  · exact (mem_positionSensitive fineGrid 0 250 1 hw _ hout _).2
      ⟨100, 0, by rw [fineGrid_gridBound]; norm_num, by rw [fineGrid_gridBound]; norm_num, hp⟩
  · exact (mem_positionSensitive fineGrid 0 250 1 hw _ hout _).2
      ⟨0, 1, by rw [fineGrid_gridBound]; norm_num, by rw [fineGrid_gridBound]; norm_num, hq⟩
  · rw [fp.1, fp.2.1]
  · rw [fq.1, fq.2.1]
  · rw [fp.2.2.2.1, fq.2.2.2.1]
    decide

/-- C3 (amended): when the loop bound `N` is at most 99, any two wafers placed by one call
of `positionSensitive` for distinct grid coordinates carry different copy numbers. -/
theorem positionSensitive_copy_unique (cfg : Config) (rin rout : ℚ) (layertype : Int)
    (hw : 6 ≤ cfg.wafers_.length) (hN : gridBound cfg rout ≤ 99) :
    ∃ out, positionSensitive cfg rin rout layertype = some out ∧
      ∀ p ∈ out, ∀ q ∈ out, (p.u, p.v) ≠ (q.u, q.v) → p.copy ≠ q.copy := by
  refine ⟨_, positionSensitive_eq cfg rin rout layertype hw, ?_⟩
  intro p hp q hq hne heq
  obtain ⟨u, v, hu, hv, hc⟩ := (mem_positionSensitive cfg rin rout layertype hw _
    (positionSensitive_eq cfg rin rout layertype hw) p).1 hp
  obtain ⟨u', v', hu', hv', hc'⟩ := (mem_positionSensitive cfg rin rout layertype hw _
    (positionSensitive_eq cfg rin rout layertype hw) q).1 hq
  have hp' := cell_mem cfg rin rout layertype u v hw p hc
  have hq' := cell_mem cfg rin rout layertype u' v' hw q hc'
  rw [hp'.2.2.2.1, hq'.2.2.2.1] at heq
  obtain ⟨e1, e2⟩ := copyId_injective u v u' v' (hu.trans hN) (hv.trans hN) (hu'.trans hN)
    (hv'.trans hN) heq
  apply hne
  rw [hp'.1, hp'.2.1, hq'.1, hq'.2.1, e1, e2]

/-- Witness of `positionSensitive_copy_unique` at `scenario`, where `N = 30`. -/
theorem positionSensitive_copy_unique_witness :
    ∃ out, positionSensitive scenario 100 300 1 = some out ∧
      ∀ p ∈ out, ∀ q ∈ out, (p.u, p.v) ≠ (q.u, q.v) → p.copy ≠ q.copy :=
  positionSensitive_copy_unique scenario 100 300 1 (by decide)
    (by rw [scenario_gridBound]; norm_num)


theorem sqrt_shift_le (x y R : ℝ) (hR : 0 ≤ R) :
    Real.sqrt (x ^ 2 + y ^ 2) ≤ Real.sqrt (x ^ 2 + (y + R) ^ 2) + R ∧
    Real.sqrt (x ^ 2 + (y + R) ^ 2) ≤ Real.sqrt (x ^ 2 + y ^ 2) + R := by
  have ha0 := Real.sqrt_nonneg (x ^ 2 + (y + R) ^ 2)
  have hb0 := Real.sqrt_nonneg (x ^ 2 + y ^ 2)
  have ha2 : Real.sqrt (x ^ 2 + (y + R) ^ 2) ^ 2 = x ^ 2 + (y + R) ^ 2 :=
    Real.sq_sqrt (by positivity)
  have hb2 : Real.sqrt (x ^ 2 + y ^ 2) ^ 2 = x ^ 2 + y ^ 2 := Real.sq_sqrt (by positivity)
  have ha : -(y + R) ≤ Real.sqrt (x ^ 2 + (y + R) ^ 2) :=
    Real.le_sqrt_of_sq_le (by nlinarith [sq_nonneg x])
  have hb : y ≤ Real.sqrt (x ^ 2 + y ^ 2) :=
    Real.le_sqrt_of_sq_le (by nlinarith [sq_nonneg x])
  constructor
  · rw [Real.sqrt_le_left (by linarith)]
    nlinarith [mul_nonneg hR (by linarith : 0 ≤ y + R + Real.sqrt (x ^ 2 + (y + R) ^ 2))]
  · rw [Real.sqrt_le_left (by linarith)]
    nlinarith [mul_nonneg hR (by linarith : 0 ≤ Real.sqrt (x ^ 2 + y ^ 2) - y)]

theorem circumradius_cast (r : ℚ) :
    ((2.0 * r / 3 : ℚ) : ℝ) * Real.sqrt 3 = 2 * (r : ℝ) / Real.sqrt 3 := by
  have h3 : Real.sqrt 3 * Real.sqrt 3 = 3 := Real.mul_self_sqrt (by norm_num)
  have hpos : (0 : ℝ) < Real.sqrt 3 := Real.sqrt_pos.2 (by norm_num)
  rw [eq_div_iff hpos.ne']
  push_cast
  norm_num
  linear_combination (2 * (r : ℝ) / 3) * h3

/-- C7: every wafer placed by `positionSensitive` has a centre whose radius `rho` satisfies
`rin - R <= rho <= rout + R`, with `R = 2r/sqrt 3` the circumradius of the hexagon. -/
theorem positionSensitive_centre_radius (cfg : Config) (rin rout : ℚ) (layertype : Int)
    (hw : 6 ≤ cfg.wafers_.length) (hr : 0 < halfPitch cfg) :
    ∃ out, positionSensitive cfg rin rout layertype = some out ∧
      ∀ p ∈ out,
        (rin : ℝ) - 2 * (halfPitch cfg : ℝ) / Real.sqrt 3
            ≤ Real.sqrt ((p.xpos : ℝ) ^ 2 + ((p.ypos : ℝ) * Real.sqrt 3) ^ 2) ∧
          Real.sqrt ((p.xpos : ℝ) ^ 2 + ((p.ypos : ℝ) * Real.sqrt 3) ^ 2)
            ≤ (rout : ℝ) + 2 * (halfPitch cfg : ℝ) / Real.sqrt 3 := by
  refine ⟨_, positionSensitive_eq cfg rin rout layertype hw, ?_⟩
  intro p hp
  obtain ⟨u, v, _, _, hc⟩ := (mem_positionSensitive cfg rin rout layertype hw _
    (positionSensitive_eq cfg rin rout layertype hw) p).1 hp
  obtain ⟨_, _, hall, _, hx, hy, _, _⟩ := cell_mem cfg rin rout layertype u v hw p hc
  rw [all_cornerIn_iff] at hall
  have hmem : (p.xpos, p.ypos + 2.0 * halfPitch cfg / 3) ∈ hexCorners (halfPitch cfg) u v := by
    rw [hx, hy]
    simp [hexCorners, cornersX, cornersY]
  obtain ⟨h1, h2⟩ := hall _ hmem
  have hR : (0 : ℝ) ≤ 2 * (halfPitch cfg : ℝ) / Real.sqrt 3 := by
    have : (0 : ℝ) < (halfPitch cfg : ℝ) := by exact_mod_cast hr
    positivity
  have hy' : ((p.ypos + 2.0 * halfPitch cfg / 3 : ℚ) : ℝ) * Real.sqrt 3
      = (p.ypos : ℝ) * Real.sqrt 3 + 2 * (halfPitch cfg : ℝ) / Real.sqrt 3 := by
    rw [← circumradius_cast]
    push_cast
    ring
  simp only [hy'] at h1 h2
  obtain ⟨t1, t2⟩ := sqrt_shift_le (p.xpos : ℝ) ((p.ypos : ℝ) * Real.sqrt 3)
    (2 * (halfPitch cfg : ℝ) / Real.sqrt 3) hR
  constructor <;> linarith

/-- C8: the wafer type of a placement with centre radius `rho` is `zone + 3` when
`layertype > 1` and `zone` otherwise, where `zone` is 0 if `rho < rMaxFine_`, else 1 if
`rho < rMinThick_`, else 2; it lies in `0..5` and indexes a wafer-name table of six entries. -/
theorem positionSensitive_wafer_type (cfg : Config) (rin rout : ℚ) (layertype : Int)
    (hw : 6 ≤ cfg.wafers_.length) :
    ∃ out, positionSensitive cfg rin rout layertype = some out ∧
      ∀ p ∈ out,
        (Real.sqrt ((p.xpos : ℝ) ^ 2 + ((p.ypos : ℝ) * Real.sqrt 3) ^ 2) < cfg.rMaxFine_ →
          p.type = 0 + (if layertype > 1 then 3 else 0)) ∧
        (¬ Real.sqrt ((p.xpos : ℝ) ^ 2 + ((p.ypos : ℝ) * Real.sqrt 3) ^ 2) < cfg.rMaxFine_ →
          Real.sqrt ((p.xpos : ℝ) ^ 2 + ((p.ypos : ℝ) * Real.sqrt 3) ^ 2) < cfg.rMinThick_ →
          p.type = 1 + (if layertype > 1 then 3 else 0)) ∧
        (¬ Real.sqrt ((p.xpos : ℝ) ^ 2 + ((p.ypos : ℝ) * Real.sqrt 3) ^ 2) < cfg.rMaxFine_ →
          ¬ Real.sqrt ((p.xpos : ℝ) ^ 2 + ((p.ypos : ℝ) * Real.sqrt 3) ^ 2) < cfg.rMinThick_ →
          p.type = 2 + (if layertype > 1 then 3 else 0)) ∧
        0 ≤ p.type ∧ p.type ≤ 5 ∧ idx cfg.wafers_ p.type = some p.name := by
  refine ⟨_, positionSensitive_eq cfg rin rout layertype hw, ?_⟩
  intro p hp
  obtain ⟨u, v, _, _, hc⟩ := (mem_positionSensitive cfg rin rout layertype hw _
    (positionSensitive_eq cfg rin rout layertype hw) p).1 hp
  obtain ⟨_, _, _, _, _, _, ht, hn⟩ := cell_mem cfg rin rout layertype u v hw p hc
  have hrange := waferType_range cfg layertype p.xpos p.ypos
  rw [← ht] at hrange
  refine ⟨?_, ?_, ?_, hrange.1, hrange.2, hn⟩
  · intro h
    rw [← sqDist_cast, ← sqrtLt_iff _ _ (sqDist_nonneg _ _)] at h
    rw [ht]
    unfold waferType
    dsimp only
    rw [if_pos h]
    split_ifs <;> rfl
  · intro h h'
    rw [← sqDist_cast, ← sqrtLt_iff _ _ (sqDist_nonneg _ _)] at h h'
    rw [ht]
    unfold waferType
    dsimp only
    rw [if_neg h, if_pos h']
    split_ifs <;> rfl
  · intro h h'
    rw [← sqDist_cast, ← sqrtLt_iff _ _ (sqDist_nonneg _ _)] at h h'
    rw [ht]
    unfold waferType
    dsimp only
    rw [if_neg h, if_neg h']
    split_ifs <;> rfl


/-- Witness of `positionSensitive_centre_radius` at `scenario`. -/
theorem positionSensitive_centre_radius_witness :
    ∃ out, positionSensitive scenario 100 300 1 = some out ∧
      ∀ p ∈ out,
        ((100 : ℚ) : ℝ) - 2 * (halfPitch scenario : ℝ) / Real.sqrt 3
            ≤ Real.sqrt ((p.xpos : ℝ) ^ 2 + ((p.ypos : ℝ) * Real.sqrt 3) ^ 2) ∧
          Real.sqrt ((p.xpos : ℝ) ^ 2 + ((p.ypos : ℝ) * Real.sqrt 3) ^ 2)
            ≤ ((300 : ℚ) : ℝ) + 2 * (halfPitch scenario : ℝ) / Real.sqrt 3 :=
  positionSensitive_centre_radius scenario 100 300 1 (by decide)
    (by rw [scenario_halfPitch]; norm_num)

/-- Witness of `positionSensitive_wafer_type` at `scenario`: every placed wafer has a type
in `0..5` that indexes `wafers_`. -/
theorem positionSensitive_wafer_type_witness :
    ∃ out, positionSensitive scenario 100 300 2 = some out ∧
      ∀ p ∈ out, 0 ≤ p.type ∧ p.type ≤ 5 ∧ idx scenario.wafers_ p.type = some p.name := by
  obtain ⟨out, h, hp⟩ := positionSensitive_wafer_type scenario 100 300 2 (by decide)
  exact ⟨out, h, fun p hm => (hp p hm).2.2.2⟩

/-! ## The radial envelope -/

theorem rMaxLoop_spec (cfg : Config) (z : ℚ)
    (hz : cfg.zFront_.length = cfg.slopeT_.length)
    (hr : cfg.rMaxFront_.length = cfg.slopeT_.length)
    (hs : cfg.zFront_.Sorted (· ≤ ·)) (n k : Nat) (r : ℚ)
    (hk : k + n = cfg.slopeT_.length) :
    (∀ j (hj : j < cfg.slopeT_.length), k ≤ j → cfg.zFront_[j] ≤ z →
      (∀ i (hi : i < cfg.slopeT_.length), j < i → z < cfg.zFront_[i]) →
      rMaxLoop cfg z n k r
        = some (cfg.rMaxFront_[j] + (z - cfg.zFront_[j]) * cfg.slopeT_[j])) ∧
    ((∀ j (hj : j < cfg.slopeT_.length), k ≤ j → z < cfg.zFront_[j]) →
      rMaxLoop cfg z n k r = some r) := by
  induction n generalizing k r with
  | zero =>
    constructor
    · intro j hj hkj
      omega
    · intro _
      rfl
  | succ n ih =>
    have hk' : k < cfg.slopeT_.length := by omega
    have e1 : cfg.zFront_[k]? = some cfg.zFront_[k] := List.getElem?_eq_getElem (by omega)
    have e2 : cfg.rMaxFront_[k]? = some cfg.rMaxFront_[k] := List.getElem?_eq_getElem (by omega)
    have e3 : cfg.slopeT_[k]? = some cfg.slopeT_[k] := List.getElem?_eq_getElem hk'
    have hsorted : ∀ j (hj : j < cfg.slopeT_.length), k ≤ j → cfg.zFront_[k] ≤ cfg.zFront_[j] := by
      intro j hj hkj
      rcases Nat.eq_or_lt_of_le hkj with h | h
      · subst h
        exact le_refl _
      · exact (List.pairwise_iff_getElem.1 hs) k j (by omega) (by omega) h
    by_cases hlt : z < cfg.zFront_[k]
    · have hloop : rMaxLoop cfg z (n + 1) k r = some r := by
        simp [rMaxLoop, e1, hlt]
      constructor
      · intro j hj hkj hle _
        exact absurd (lt_of_lt_of_le hlt (hsorted j hj hkj)) (not_lt.2 hle)
      · intro _
        exact hloop
    · have hloop : rMaxLoop cfg z (n + 1) k r = rMaxLoop cfg z n (k + 1)
          (cfg.rMaxFront_[k] + (z - cfg.zFront_[k]) * cfg.slopeT_[k]) := by
        simp [rMaxLoop, e1, e2, e3, hlt]
      obtain ⟨ih1, ih2⟩ := ih (k + 1)
        (cfg.rMaxFront_[k] + (z - cfg.zFront_[k]) * cfg.slopeT_[k]) (by omega)
      constructor
      · intro j hj hkj hle hlast
        rw [hloop]
        rcases Nat.eq_or_lt_of_le hkj with h | h
        · subst h
          exact ih2 (fun i hi hki => hlast i hi hki)
        · exact ih1 j hj h hle hlast
      · intro hall
        exact absurd (hall k hk' (le_refl _)) hlt

/-- C4: for a breakpoint table of equal lengths with `zFront_` sorted ascending, `rMax z` is
`rMaxFront_[k] + (z - zFront_[k]) * slopeT_[k]` for the last index `k` with `zFront_[k] <= z`,
and 0 when there is no such index; at `z = zFront_[k]` breakpoint `k` itself is used, so the
envelope is right-continuous. -/
theorem rMax_last_breakpoint (cfg : Config) (z : ℚ)
    (hz : cfg.zFront_.length = cfg.slopeT_.length)
    (hr : cfg.rMaxFront_.length = cfg.slopeT_.length)
    (hs : cfg.zFront_.Sorted (· ≤ ·)) :
    (∀ k (hk : k < cfg.slopeT_.length), cfg.zFront_[k] ≤ z →
      (∀ j (hj : j < cfg.slopeT_.length), k < j → z < cfg.zFront_[j]) →
      rMax cfg z = some (cfg.rMaxFront_[k] + (z - cfg.zFront_[k]) * cfg.slopeT_[k])) ∧
    ((∀ k (hk : k < cfg.slopeT_.length), z < cfg.zFront_[k]) → rMax cfg z = some 0) ∧
    (∀ k (hk : k < cfg.slopeT_.length),
      (∀ j (hj : j < cfg.slopeT_.length), k < j → cfg.zFront_[k] < cfg.zFront_[j]) →
      rMax cfg cfg.zFront_[k] = some cfg.rMaxFront_[k]) := by
  obtain ⟨h1, h2⟩ := rMaxLoop_spec cfg z hz hr hs cfg.slopeT_.length 0 0 (by omega)
  refine ⟨?_, ?_, ?_⟩
  · intro k hk hle hlast
    exact h1 k hk (Nat.zero_le _) hle hlast
  · intro hall
    exact h2 (fun j hj _ => hall j hj)
  · intro k hk hlast
    have := (rMaxLoop_spec cfg cfg.zFront_[k] hz hr hs cfg.slopeT_.length 0 0 (by omega)).1
      k hk (Nat.zero_le _) (le_refl _) hlast
    rw [rMax, this]
    simp


/-- Witness of `rMax_last_breakpoint` on `twoSlopes`: at z = 320 the breakpoint at 300 is the
last one not above z, and the envelope is 100 + 20 * 1. -/
theorem rMax_last_breakpoint_witness : rMax twoSlopes 320 = some 120 := by
  have h := (rMax_last_breakpoint twoSlopes 320 rfl rfl
    (by simp [twoSlopes, scenario]; norm_num)).1 0 (by decide)
    (by simp [twoSlopes, scenario]; norm_num)
    (by
      intro j hj hlt
      have hj1 : j = 1 := by
        have : j < 2 := hj
        omega
      subst hj1
      simp [twoSlopes, scenario]; norm_num)
  rw [h]
  simp [twoSlopes, scenario]
  norm_num


/-! ## The layer loop -/

theorem idx_eq_some {α : Type} (xs : List α) (i : Int) (a : α) :
    idx xs i = some a ↔ 0 ≤ i ∧ xs[i.toNat]? = some a := by
  unfold idx
  split_ifs with h
  · simp [h]
  · simp [h]

theorem idx_some_lt {α : Type} (xs : List α) (i : Int) (a : α) (h : idx xs i = some a) :
    0 ≤ i ∧ i < xs.length := by
  obtain ⟨h0, h1⟩ := (idx_eq_some xs i a).1 h
  obtain ⟨hlt, _⟩ := List.getElem?_eq_some.1 h1
  exact ⟨h0, by omega⟩

theorem idx_set (cn : List Int) (k m : Int) (v : Int) (hk : 0 ≤ k) (hkl : k < cn.length)
    (hm : 0 ≤ m) :
    idx (cn.set k.toNat v) m = if m = k then some v else idx cn m := by
  unfold idx
  rw [if_pos hm, if_pos hm, List.getElem?_set]
  by_cases h : m = k
  · subst h
    have : m.toNat < cn.length := by omega
    simp [this]
  · have : ¬ k.toNat = m.toNat := by omega
    simp [h, this]

theorem rMaxLoop_isSome (cfg : Config) (z : ℚ) (n k : Nat) (r : ℚ)
    (hz : k + n ≤ cfg.zFront_.length) (hr : k + n ≤ cfg.rMaxFront_.length)
    (hs : k + n ≤ cfg.slopeT_.length) : ∃ x, rMaxLoop cfg z n k r = some x := by
  induction n generalizing k r with
  | zero => exact ⟨r, rfl⟩
  | succ n ih =>
    have e1 : cfg.zFront_[k]? = some cfg.zFront_[k] := List.getElem?_eq_getElem (by omega)
    have e2 : cfg.rMaxFront_[k]? = some cfg.rMaxFront_[k] := List.getElem?_eq_getElem (by omega)
    have e3 : cfg.slopeT_[k]? = some cfg.slopeT_[k] := List.getElem?_eq_getElem (by omega)
    by_cases hlt : z < cfg.zFront_[k]
    · exact ⟨r, by simp [rMaxLoop, e1, hlt]⟩
    · obtain ⟨x, hx⟩ := ih (k + 1) (cfg.rMaxFront_[k] + (z - cfg.zFront_[k]) * cfg.slopeT_[k])
        (by omega) (by omega) (by omega)
      exact ⟨x, by simp [rMaxLoop, e1, e2, e3, hlt, hx]⟩

theorem rMax_isSome (cfg : Config) (z : ℚ) (hz : cfg.slopeT_.length ≤ cfg.zFront_.length)
    (hr : cfg.slopeT_.length ≤ cfg.rMaxFront_.length) : ∃ x, rMax cfg z = some x :=
  rMaxLoop_isSome cfg z _ 0 0 (by omega) (by omega) (by omega)

theorem layerSum_zero (cfg : Config) (ly : Int) : layerSum cfg ly 0 = 0 := rfl

theorem layerSum_succ (cfg : Config) (ly : Int) (n : Nat) :
    layerSum cfg ly (n + 1) = layerSum cfg ly n + thickAt cfg (ly + (n : Int)) := by
  unfold layerSum
  rw [List.range_succ, List.map_append, List.sum_append]
  simp

theorem layerSum_succ_left (cfg : Config) (ly : Int) (n : Nat) :
    layerSum cfg ly (n + 1) = thickAt cfg ly + layerSum cfg (ly + 1) n := by
  induction n with
  | zero => simp [layerSum, List.range_succ]
  | succ n ih =>
    rw [layerSum_succ, ih, layerSum_succ cfg (ly + 1) n]
    have : ly + 1 + (n : Int) = ly + ((n + 1 : Nat) : Int) := by push_cast; ring
    rw [this]
    ring

theorem layerLoop_spec (cfg : Config) (i : Nat) (zi zo routF : ℚ)
    (hnames : cfg.names_.length = cfg.thick_.length)
    (hmats : cfg.materials_.length = cfg.thick_.length)
    (htype : ∀ t ∈ cfg.layerType_, 0 ≤ t ∧ t < cfg.thick_.length)
    (hB : 2 ≤ cfg.slopeB_.length) (hw : 6 ≤ cfg.wafers_.length)
    (n : Nat) (ly : Int) (zz thickTot : ℚ) (cn : List Int)
    (hcn : cn.length = cfg.thick_.length) (hly : 0 ≤ ly)
    (hT : ly + n ≤ cfg.layerType_.length) (hS : ly + n ≤ cfg.layerSense_.length) :
    ∃ res, layerLoop cfg i zi zo routF n ly zz thickTot cn = some res ∧
      res.copyNumber.length = cn.length ∧
      CopyTrace cn res.records res.copyNumber ∧
      res.records.map (fun r => r.ly) = (List.range n).map (fun (j : Nat) => ly + (j : Int)) ∧
      res.thickTot = thickTot + layerSum cfg ly n ∧
      res.zz = zz + layerSum cfg ly n ∧
      (∀ (j : Nat) (r : LayerRecord), res.records[j]? = some r →
        r.zz = zz + layerSum cfg ly j + r.hthick) ∧
      ∀ r ∈ res.records, LayerFacts cfg i zi zo routF r := by
  induction n generalizing ly zz thickTot cn with
  | zero =>
    refine ⟨_, rfl, rfl, rfl, rfl, ?_, ?_, ?_, ?_⟩
    · simp [layerSum]
    · simp [layerSum]
    · intro j r h
      simp at h
    · intro r h
      simp at h
  | succ n ih =>
    have hlyT : ly.toNat < cfg.layerType_.length := by omega
    have hlyS : ly.toNat < cfg.layerSense_.length := by omega
    have e1 : idx cfg.layerType_ ly = some cfg.layerType_[ly.toNat] := by
      rw [idx_eq_some]; exact ⟨hly, List.getElem?_eq_getElem hlyT⟩
    obtain ⟨hii0, hiiT⟩ := htype _ (List.getElem_mem hlyT)
    generalize cfg.layerType_[ly.toNat] = ii at e1 hii0 hiiT
    obtain ⟨copy, e2⟩ := idx_isSome cn ii hii0 (by omega)
    obtain ⟨th, e3⟩ := idx_isSome cfg.thick_ ii hii0 hiiT
    have e4 : idx cfg.layerSense_ ly = some cfg.layerSense_[ly.toNat] := by
      rw [idx_eq_some]; exact ⟨hly, List.getElem?_eq_getElem hlyS⟩
    generalize cfg.layerSense_[ly.toNat] = sense at e4
    obtain ⟨nm, e5⟩ := idx_isSome cfg.names_ ii hii0 (by omega)
    obtain ⟨mat, e6⟩ := idx_isSome cfg.materials_ ii hii0 (by omega)
    have b0 : cfg.slopeB_[0]? = some cfg.slopeB_[0] := List.getElem?_eq_getElem (by omega)
    have b1 : cfg.slopeB_[1]? = some cfg.slopeB_[1] := List.getElem?_eq_getElem (by omega)
    have hth : thickAt cfg ly = th := by simp [thickAt, e1, e3]
    obtain ⟨rest, hrest, hlen, htrace, hlys, htt, hzz, hpos, hfacts⟩ :=
      ih (ly + 1) (zz + 0.5 * th + 0.5 * th) (thickTot + th) (cn.set ii.toNat (copy + 1))
        (by rw [List.length_set]; exact hcn) (by omega) (by push_cast at hT ⊢; omega)
        (by push_cast at hS ⊢; omega)
    by_cases hs : sense = 0
    · subst hs
      have hloop : layerLoop cfg i zi zo routF (n + 1) ly zz thickTot cn = some
          { rest with records :=
              { block := i, ly := ly, ii := ii, name := "HGCal" ++ nm ++ toString copy,
                material := mat,
                solid := Solid.polyhedra cfg.sectors_ [-(0.5 * th), 0.5 * th]
                  [zo * cfg.slopeB_[0], zo * cfg.slopeB_[0]]
                  [routF * cfg.cosAlpha - tol, routF * cfg.cosAlpha - tol],
                wafers := [], copy := copy, zz := zz + 0.5 * th, hthick := 0.5 * th,
                zi := zi, zo := zo, routF := routF, rinB := zo * cfg.slopeB_[0] }
              :: rest.records } := by
        simp [layerLoop, e1, e2, e3, e4, e5, e6, b0, hrest]
      refine ⟨_, hloop, ?_, ?_, ?_, ?_, ?_, ?_, ?_⟩
      · simpa using hlen
      · exact ⟨e2, htrace⟩
      · simp only [List.map_cons, hlys, List.range_succ_eq_map, List.map_map]
        simp only [Function.comp_def, Nat.succ_eq_add_one, Nat.cast_zero, add_zero,
          List.cons.injEq, true_and]
        apply List.map_congr_left
        intro a _
        push_cast
        ring
      · rw [htt, layerSum_succ_left, hth]; ring
      · rw [hzz, layerSum_succ_left, hth]; ring
      · intro j r hj
        cases j with
        | zero =>
          simp only [List.getElem?_cons_zero, Option.some.injEq] at hj
          subst hj
          simp [layerSum]
        | succ j =>
          simp only [List.getElem?_cons_succ] at hj
          rw [hpos j r hj, layerSum_succ_left, hth]
          ring
      · intro r hr
        rcases List.mem_cons.1 hr with h | h
        · subst h
          refine ⟨rfl, rfl, rfl, rfl, e1, ?_, 0, cfg.slopeB_[0], e4, b0, rfl, ?_, ?_⟩
          · rw [e3]; congr 1; ring
          · intro _; exact ⟨rfl, rfl⟩
          · intro h; exact absurd rfl h
        · exact hfacts r h
    · obtain ⟨wf, hwf⟩ : ∃ w, positionSensitive cfg (zo * cfg.slopeB_[1]) routF sense = some w :=
        ⟨_, positionSensitive_eq cfg _ routF sense hw⟩
      have hloop : layerLoop cfg i zi zo routF (n + 1) ly zz thickTot cn = some
          { rest with records :=
              { block := i, ly := ly, ii := ii, name := "HGCal" ++ nm ++ toString copy,
                material := mat,
                solid := Solid.tubs (0.5 * th) (zo * cfg.slopeB_[1]) routF,
                wafers := wf, copy := copy, zz := zz + 0.5 * th, hthick := 0.5 * th,
                zi := zi, zo := zo, routF := routF, rinB := zo * cfg.slopeB_[1] }
              :: rest.records } := by
        simp [layerLoop, e1, e2, e3, e4, e5, e6, b1, hs, hwf, hrest]
      refine ⟨_, hloop, ?_, ?_, ?_, ?_, ?_, ?_, ?_⟩
      · simpa using hlen
      · exact ⟨e2, htrace⟩
      · simp only [List.map_cons, hlys, List.range_succ_eq_map, List.map_map]
        simp only [Function.comp_def, Nat.succ_eq_add_one, Nat.cast_zero, add_zero,
          List.cons.injEq, true_and]
        apply List.map_congr_left
        intro a _
        push_cast
        ring
      · rw [htt, layerSum_succ_left, hth]; ring
      · rw [hzz, layerSum_succ_left, hth]; ring
      · intro j r hj
        cases j with
        | zero =>
          simp only [List.getElem?_cons_zero, Option.some.injEq] at hj
          subst hj
          simp [layerSum]
        | succ j =>
          simp only [List.getElem?_cons_succ] at hj
          rw [hpos j r hj, layerSum_succ_left, hth]
          ring
      · intro r hr
        rcases List.mem_cons.1 hr with h | h
        · subst h
          refine ⟨rfl, rfl, rfl, rfl, e1, ?_, sense, cfg.slopeB_[1], e4, ?_, rfl, ?_, ?_⟩
          · rw [e3]; congr 1; ring
          · rw [if_neg hs]; exact b1
          · intro h; exact absurd h hs
          · intro _; exact ⟨hwf, rfl⟩
        · exact hfacts r h

/-! ## The block loop -/

theorem copyTrace_append (cn mid cn' : List Int) (xs ys : List LayerRecord)
    (h1 : CopyTrace cn xs mid) (h2 : CopyTrace mid ys cn') : CopyTrace cn (xs ++ ys) cn' := by
  induction xs generalizing cn with
  | nil =>
    simp only [CopyTrace] at h1
    subst h1
    exact h2
  | cons x xs ih =>
    obtain ⟨hx, hrest⟩ := h1
    exact ⟨hx, ih _ hrest⟩

theorem sum_take_succ (l : List Int) (i : Nat) (c : Int) (h : l[i]? = some c) :
    (l.take (i + 1)).sum = (l.take i).sum + c := by
  rw [List.take_succ, h]
  simp

theorem sum_take_succ_rat (l : List ℚ) (i : Nat) (c : ℚ) (h : l[i]? = some c) :
    (l.take (i + 1)).sum = (l.take i).sum + c := by
  rw [List.take_succ, h]
  simp

theorem sum_nonneg_of_forall (l : List Int) (h : ∀ c ∈ l, 0 ≤ c) : 0 ≤ l.sum := by
  induction l with
  | nil => simp
  | cons a l ih =>
    rw [List.sum_cons]
    have := h a (List.mem_cons_self _ _)
    have := ih (fun c hc => h c (List.mem_cons_of_mem _ hc))
    omega

theorem sum_take_le (l : List Int) (h : ∀ c ∈ l, 0 ≤ c) (k : Nat) :
    0 ≤ (l.take k).sum ∧ (l.take k).sum ≤ l.sum := by
  have hsplit : l.sum = (l.take k).sum + (l.drop k).sum := by
    rw [← List.sum_append, List.take_append_drop]
  have h1 := sum_nonneg_of_forall (l.take k) (fun c hc => h c (List.mem_of_mem_take hc))
  have h2 := sum_nonneg_of_forall (l.drop k) (fun c hc => h c (List.mem_of_mem_drop hc))
  omega

theorem blockLoop_spec (cfg : Config)
    (hlay : ∀ c ∈ cfg.layers_, 0 ≤ c)
    (hthick : cfg.layers_.length ≤ cfg.layerThick_.length)
    (hsumT : cfg.layers_.sum ≤ cfg.layerType_.length)
    (hsumS : cfg.layers_.sum ≤ cfg.layerSense_.length)
    (htype : ∀ t ∈ cfg.layerType_, 0 ≤ t ∧ t < cfg.thick_.length)
    (hnames : cfg.names_.length = cfg.thick_.length)
    (hmats : cfg.materials_.length = cfg.thick_.length)
    (hB : 2 ≤ cfg.slopeB_.length)
    (hzF : cfg.slopeT_.length ≤ cfg.zFront_.length)
    (hrF : cfg.slopeT_.length ≤ cfg.rMaxFront_.length)
    (hw : 6 ≤ cfg.wafers_.length)
    (n i : Nat) (zi : ℚ) (laymin : Int) (cn : List Int)
    (hi : i + n = cfg.layers_.length) (hz : zi = zFrontOf cfg i)
    (hl : laymin = firstLayerOf cfg i) (hcn : cn.length = cfg.thick_.length) :
    ∃ out, blockLoop cfg n i zi laymin cn = some out ∧
      out.blocks.length = n ∧
      out.copyNumber.length = cn.length ∧
      CopyTrace cn out.records out.copyNumber ∧
      out.zi = zFrontOf cfg (i + n) ∧
      out.laymin = firstLayerOf cfg (i + n) ∧
      ∀ (j : Nat) (b : BlockRecord), out.blocks[j]? = some b → BlockFacts cfg (i + j) b := by
  induction n generalizing i zi laymin cn with
  | zero =>
    refine ⟨_, rfl, rfl, rfl, rfl, hz, hl, ?_⟩
    intro j b h
    simp at h
  | succ n ih =>
    have e1 : cfg.layerThick_[i]? = some cfg.layerThick_[i] :=
      List.getElem?_eq_getElem (by omega)
    generalize cfg.layerThick_[i] = declared at e1
    obtain ⟨routF, e2⟩ := rMax_isSome cfg zi hzF hrF
    have hil : i < cfg.layers_.length := by omega
    have e3 : cfg.layers_[i]? = some cfg.layers_[i] := List.getElem?_eq_getElem hil
    have hc0 : 0 ≤ cfg.layers_[i] := hlay _ (List.getElem_mem hil)
    generalize cfg.layers_[i] = count at e3 hc0
    have hnext : firstLayerOf cfg (i + 1) = laymin + count := by
      rw [hl]; exact sum_take_succ _ _ _ e3
    have hznext : zFrontOf cfg (i + 1) = zi + declared := by
      rw [hz, zFrontOf, zFrontOf, sum_take_succ_rat _ _ _ e1]; ring
    have hlm0 : 0 ≤ laymin := by rw [hl]; exact (sum_take_le _ hlay i).1
    have hle : laymin + count ≤ cfg.layers_.sum := by
      rw [← hnext]; exact (sum_take_le _ hlay (i + 1)).2
    have hcnt : (count.toNat : Int) = count := Int.toNat_of_nonneg hc0
    obtain ⟨inner, hinner, hlen, htrace, hlys, htt, _, hpos, hfacts⟩ :=
      layerLoop_spec cfg i zi (zi + declared) routF hnames hmats htype hB hw
        count.toNat laymin zi 0 cn hcn hlm0
        (by rw [hcnt]; omega) (by rw [hcnt]; omega)
    obtain ⟨rest, hrest, hblen, hclen, hrtrace, hrz, hrl, hrfacts⟩ :=
      ih (i + 1) (zi + declared) (laymin + count) inner.copyNumber (by omega) hznext.symm
        hnext.symm (by rw [hlen]; exact hcn)
    have hloop : blockLoop cfg (n + 1) i zi laymin cn = some
        { rest with blocks :=
            { block := i, zi := zi, zo := zi + declared, routF := routF, laymin := laymin,
              laymax := laymin + count, thickTot := inner.thickTot, layers := inner.records,
              diags := thicknessCheck i inner.thickTot declared } :: rest.blocks } := by
      simp [blockLoop, e1, e2, e3, hinner, hrest]
    refine ⟨_, hloop, ?_, ?_, ?_, ?_, ?_, ?_⟩
    · simp [hblen]
    · simp only [hclen, hlen]
    · simp only [BuildResult.records, List.flatMap_cons]
      exact copyTrace_append _ _ _ _ _ htrace hrtrace
    · rw [hrz]; congr 1; omega
    · rw [hrl]; congr 1; omega
    · intro j b hj
      cases j with
      | zero =>
        simp only [List.getElem?_cons_zero, Option.some.injEq] at hj
        subst hj
        refine ⟨rfl, hz, hl, e2, ⟨declared, e1, rfl, rfl⟩, ⟨count, e3, hc0, rfl, ?_, ?_⟩, ?_, ?_⟩
        · exact hlys
        · simp only [htt]; ring
        · intro j r h
          exact hpos j r h
        · exact hfacts
      | succ j =>
        simp only [List.getElem?_cons_succ] at hj
        have := hrfacts j b hj
        have e : i + (j + 1) = i + 1 + j := by omega
        rw [e]; exact this

theorem constructLayers_spec (cfg : Config) (cn : List Int) (h : WellFormed cfg cn) :
    ∃ out, constructLayers cfg cn = some out ∧
      out.blocks.length = cfg.layers_.length ∧
      out.copyNumber.length = cn.length ∧
      CopyTrace cn out.records out.copyNumber ∧
      out.zi = zFrontOf cfg cfg.layers_.length ∧
      out.laymin = firstLayerOf cfg cfg.layers_.length ∧
      ∀ (j : Nat) (b : BlockRecord), out.blocks[j]? = some b → BlockFacts cfg j b := by
  obtain ⟨h1, h2, h3, h4, h5, h6, h7, h8, h9, h10, h11, h12⟩ := h
  obtain ⟨out, ho, a, b, c, d, e, f⟩ := blockLoop_spec cfg h1 h2 h3 h4 h5 h6 h7 h9 h10 h11 h12
    cfg.layers_.length 0 cfg.zMinBlock_ 0 cn (by omega) (by simp [zFrontOf]) (by simp [firstLayerOf]) h8
  refine ⟨out, ho, a, b, c, ?_, ?_, ?_⟩
  · simpa using d
  · simpa using e
  · intro j blk hj
    simpa using f j blk hj

theorem firstLayerOf_succ (cfg : Config) (i : Nat) (c : Int) (h : cfg.layers_[i]? = some c) :
    firstLayerOf cfg (i + 1) = firstLayerOf cfg i + c :=
  sum_take_succ _ _ _ h

theorem records_take_ly (cfg : Config) (bs : List BlockRecord)
    (hlay : ∀ c ∈ cfg.layers_, 0 ≤ c) (hlen : bs.length = cfg.layers_.length)
    (hfacts : ∀ (j : Nat) (b : BlockRecord), bs[j]? = some b → BlockFacts cfg j b) (k : Nat)
    (hk : k ≤ bs.length) :
    ((bs.take k).flatMap (fun b => b.layers)).map (fun r => r.ly)
      = (List.range (firstLayerOf cfg k).toNat).map (fun (j : Nat) => (j : Int)) := by
  induction k with
  | zero => simp [firstLayerOf]
  | succ k ih =>
    have hkl : k < bs.length := by omega
    have hb : bs[k]? = some bs[k] := List.getElem?_eq_getElem hkl
    obtain ⟨_, _, hlm, _, _, ⟨c, hc, hc0, _, hlys, _⟩, _, _⟩ := hfacts k _ hb
    have h0 := (sum_take_le _ hlay k).1
    have hnat : (firstLayerOf cfg (k + 1)).toNat = (firstLayerOf cfg k).toNat + c.toNat := by
      rw [firstLayerOf_succ cfg k c hc]
      have : 0 ≤ firstLayerOf cfg k := h0
      omega
    rw [List.take_succ, hb, List.flatMap_append, List.map_append, ih (by omega), hnat,
      List.range_add, List.map_append]
    congr 1
    simp only [Option.toList, List.flatMap_cons, List.flatMap_nil, List.append_nil, hlys,
      List.map_map]
    apply List.map_congr_left
    intro a _
    simp only [Function.comp_apply, hlm]
    have : 0 ≤ firstLayerOf cfg k := h0
    push_cast
    omega

/-! ## Copy numbers of the layers -/

theorem copyTrace_length (cn cn' : List Int) (rs : List LayerRecord)
    (h : CopyTrace cn rs cn') : cn'.length = cn.length := by
  induction rs generalizing cn with
  | nil => simp only [CopyTrace] at h; rw [h]
  | cons r rs ih =>
    obtain ⟨_, hrest⟩ := h
    rw [ih _ hrest, List.length_set]

theorem copyTrace_final (cn cn' : List Int) (rs : List LayerRecord)
    (h : CopyTrace cn rs cn') (m c0 : Int) (hm : idx cn m = some c0) :
    idx cn' m = some (c0 + (rs.countP (fun x => decide (x.ii = m)) : Nat)) := by
  induction rs generalizing cn c0 with
  | nil =>
    simp only [CopyTrace] at h
    subst h
    simpa using hm
  | cons r rs ih =>
    obtain ⟨hr, hrest⟩ := h
    obtain ⟨hr0, hrl⟩ := idx_some_lt _ _ _ hr
    obtain ⟨hm0, _⟩ := idx_some_lt _ _ _ hm
    have hset := idx_set cn r.ii m (r.copy + 1) hr0 hrl hm0
    by_cases hmr : m = r.ii
    · subst hmr
      rw [if_pos rfl] at hset
      rw [hr] at hm
      injection hm with hm
      subst hm
      rw [ih _ hrest _ hset, List.countP_cons_of_pos]
      · congr 1; push_cast; ring
      · simp
    · rw [if_neg hmr, hm] at hset
      rw [ih _ hrest _ hset, List.countP_cons_of_neg]
      simpa using fun h => hmr h.symm

theorem copyTrace_prefix (cn cn' : List Int) (pre post : List LayerRecord) (r : LayerRecord)
    (h : CopyTrace cn (pre ++ r :: post) cn') :
    ∃ c0, idx cn r.ii = some c0 ∧
      r.copy = c0 + (pre.countP (fun x => decide (x.ii = r.ii)) : Nat) := by
  induction pre generalizing cn with
  | nil =>
    obtain ⟨hr, _⟩ := h
    exact ⟨r.copy, hr, by simp⟩
  | cons x pre ih =>
    obtain ⟨hx, hrest⟩ := h
    obtain ⟨c1, hc1, hcopy⟩ := ih _ hrest
    obtain ⟨hx0, hxl⟩ := idx_some_lt _ _ _ hx
    obtain ⟨hr0, _⟩ := idx_some_lt _ _ _ hc1
    rw [idx_set cn x.ii r.ii (x.copy + 1) hx0 hxl hr0] at hc1
    by_cases hrx : r.ii = x.ii
    · rw [if_pos hrx] at hc1
      injection hc1 with hc1
      refine ⟨x.copy, by rw [hrx]; exact hx, ?_⟩
      rw [List.countP_cons_of_pos]
      · rw [hcopy, ← hc1]; push_cast; ring
      · simpa using hrx.symm
    · rw [if_neg hrx] at hc1
      refine ⟨c1, hc1, ?_⟩
      rw [List.countP_cons_of_neg]
      · exact hcopy
      · simpa using fun h => hrx h.symm

theorem copyTrace_getElem (cn cn' : List Int) (rs : List LayerRecord)
    (h : CopyTrace cn rs cn') (k : Nat) (r : LayerRecord) (hk : rs[k]? = some r) :
    ∃ c0, idx cn r.ii = some c0 ∧
      r.copy = c0 + ((rs.take k).countP (fun x => decide (x.ii = r.ii)) : Nat) := by
  obtain ⟨hlt, hget⟩ := List.getElem?_eq_some.1 hk
  have hsplit : rs = rs.take k ++ r :: rs.drop (k + 1) := by
    rw [← hget, List.getElem_cons_drop, List.take_append_drop]
  rw [hsplit] at h
  exact copyTrace_prefix cn cn' _ _ r h

theorem countP_take_lt (rs : List LayerRecord) (a b : Nat) (ra : LayerRecord)
    (ha : rs[a]? = some ra) (hab : a < b) (m : Int) (hm : ra.ii = m) :
    (rs.take a).countP (fun x => decide (x.ii = m)) <
      (rs.take b).countP (fun x => decide (x.ii = m)) := by
  have h1 : rs.take (a + 1) = rs.take a ++ [ra] := by
    rw [List.take_succ, ha]; rfl
  have h2 : (rs.take (a + 1)).countP (fun x => decide (x.ii = m))
      = (rs.take a).countP (fun x => decide (x.ii = m)) + 1 := by
    rw [h1, List.countP_append]
    simp [hm]
  have h3 : (rs.take (a + 1)).countP (fun x => decide (x.ii = m))
      ≤ (rs.take b).countP (fun x => decide (x.ii = m)) := by
    apply List.Sublist.countP_le
    exact (List.take_sublist_take_left (l := rs) (by omega : a + 1 ≤ b))
  omega

/-- C5: every layer is placed with the value its counter `copyNumber_[ii]` holds at that
moment, after which that counter alone is incremented by one (`CopyTrace`); hence a layer of
class `m` gets `c0[m]` plus the number of earlier layers of class `m`, layers of one class get
strictly increasing (so pairwise distinct) copy numbers, and after the build `copyNumber_[m]`
is `c0[m]` plus the number of layers of class `m`. The layers are all the layers of the
configuration: their number is the sum of the layer counts of the blocks. -/
theorem constructLayers_copy_numbers (cfg : Config) (cn : List Int) (h : WellFormed cfg cn) :
    ∃ out, constructLayers cfg cn = some out ∧
      CopyTrace cn out.records out.copyNumber ∧
      (∀ (k : Nat) (r : LayerRecord), out.records[k]? = some r →
        ∃ c0, idx cn r.ii = some c0 ∧
          r.copy = c0 + ((out.records.take k).countP (fun x => decide (x.ii = r.ii)) : Nat)) ∧
      (∀ (a b : Nat) (ra rb : LayerRecord), out.records[a]? = some ra →
        out.records[b]? = some rb → a < b → ra.ii = rb.ii → ra.copy < rb.copy) ∧
      (∀ (m c0 : Int), idx cn m = some c0 →
        idx out.copyNumber m
          = some (c0 + (out.records.countP (fun x => decide (x.ii = m)) : Nat))) ∧
      out.records.length = cfg.layers_.sum.toNat := by
  obtain ⟨out, ho, hlen, _, htrace, _, _, hfacts⟩ := constructLayers_spec cfg cn h
  refine ⟨out, ho, htrace, ?_, ?_, ?_, ?_⟩
  · intro k r hk
    exact copyTrace_getElem cn _ _ htrace k r hk
  · intro a b ra rb ha hb hab hii
    obtain ⟨ca, hca, ea⟩ := copyTrace_getElem cn _ _ htrace a ra ha
    obtain ⟨cb, hcb, eb⟩ := copyTrace_getElem cn _ _ htrace b rb hb
    rw [← hii, hca] at hcb
    injection hcb with hcb
    have := countP_take_lt out.records a b ra ha hab rb.ii hii
    rw [ea, eb, ← hcb, hii]
    have : ((List.countP (fun x => decide (x.ii = rb.ii)) (List.take a out.records) : Nat) : Int)
        < (List.countP (fun x => decide (x.ii = rb.ii)) (List.take b out.records) : Nat) := by
      exact_mod_cast this
    omega
  · intro m c0 hm
    exact copyTrace_final cn _ _ htrace m c0 hm
  · have hall := records_take_ly cfg out.blocks h.1 hlen hfacts out.blocks.length (le_refl _)
    rw [List.take_length, hlen] at hall
    have hsum : firstLayerOf cfg cfg.layers_.length = cfg.layers_.sum := by
      simp [firstLayerOf]
    rw [hsum] at hall
    have := congrArg List.length hall
    simpa [BuildResult.records] using this


/-- Witness of `constructLayers_copy_numbers` at `scenario` with all counters at 1. -/
theorem constructLayers_copy_numbers_witness :
    ∃ out, constructLayers scenario [1, 1] = some out ∧
      CopyTrace [1, 1] out.records out.copyNumber ∧
      (∀ (k : Nat) (r : LayerRecord), out.records[k]? = some r →
        ∃ c0, idx [1, 1] r.ii = some c0 ∧
          r.copy = c0 + ((out.records.take k).countP (fun x => decide (x.ii = r.ii)) : Nat)) ∧
      (∀ (a b : Nat) (ra rb : LayerRecord), out.records[a]? = some ra →
        out.records[b]? = some rb → a < b → ra.ii = rb.ii → ra.copy < rb.copy) ∧
      (∀ (m c0 : Int), idx [1, 1] m = some c0 →
        idx out.copyNumber m
          = some (c0 + (out.records.countP (fun x => decide (x.ii = m)) : Nat))) ∧
      out.records.length = 2 :=
  constructLayers_copy_numbers scenario [1, 1] (by decide)

/-! ## Layer indices, positions and thickness checks of the blocks -/

/-- C10: block `i` instantiates exactly the layer indices `L_i, ..., L_i + layers_[i] - 1` in
increasing order, where `L_i` is the sum of the counts of the earlier blocks; all blocks
together instantiate each index below the sum of the counts exactly once, so the number of
layer placements is that sum, whatever the thickness checks report. -/
theorem constructLayers_layer_indices (cfg : Config) (cn : List Int) (h : WellFormed cfg cn) :
    ∃ out, constructLayers cfg cn = some out ∧
      out.blocks.length = cfg.layers_.length ∧
      (∀ (i : Nat) (b : BlockRecord), out.blocks[i]? = some b →
        ∃ c, cfg.layers_[i]? = some c ∧
          b.layers.map (fun r => r.ly)
            = (List.range c.toNat).map (fun (j : Nat) => firstLayerOf cfg i + (j : Int)) ∧
          ∀ r ∈ b.layers, r.block = i) ∧
      out.records.map (fun r => r.ly)
        = (List.range cfg.layers_.sum.toNat).map (fun (j : Nat) => (j : Int)) ∧
      out.records.length = cfg.layers_.sum.toNat := by
  obtain ⟨out, ho, hlen, _, _, _, _, hfacts⟩ := constructLayers_spec cfg cn h
  have hall := records_take_ly cfg out.blocks h.1 hlen hfacts out.blocks.length (le_refl _)
  rw [List.take_length, hlen] at hall
  have hsum : firstLayerOf cfg cfg.layers_.length = cfg.layers_.sum := by
    simp [firstLayerOf]
  rw [hsum] at hall
  refine ⟨out, ho, hlen, ?_, hall, ?_⟩
  · intro i b hb
    obtain ⟨_, _, hlm, _, _, ⟨c, hc, _, _, hlys, _⟩, _, hl⟩ := hfacts i b hb
    refine ⟨c, hc, ?_, fun r hr => (hl r hr).1⟩
    rw [hlys, hlm]
  · have := congrArg List.length hall
    simpa [BuildResult.records] using this


/-- Witness of `constructLayers_layer_indices` at `scenario`: two layers are placed. -/
theorem constructLayers_layer_indices_witness :
    ∃ out, constructLayers scenario [1, 1] = some out ∧ out.records.length = 2 := by
  obtain ⟨out, ho, _, _, _, hn⟩ := constructLayers_layer_indices scenario [1, 1] (by decide)
  exact ⟨out, ho, hn⟩

theorem thicknessCheck_block (i : Nat) (t d : ℚ) (x : Diagnostic)
    (hx : x ∈ thicknessCheck i t d) : x.block = i := by
  unfold thicknessCheck at hx
  split_ifs at hx <;> simp at hx <;> rw [hx]

theorem filter_diags_blocks (cfg : Config) (bs : List BlockRecord) (off i : Nat)
    (hfacts : ∀ (j : Nat) (b : BlockRecord), bs[j]? = some b → BlockFacts cfg (off + j) b)
    (b : BlockRecord) (hb : bs[i]? = some b) :
    (bs.flatMap (fun blk => blk.diags)).filter (fun x => decide (x.block = off + i))
      = b.diags := by
  have hblk : ∀ (j : Nat) (b' : BlockRecord), bs[j]? = some b' →
      ∀ x ∈ b'.diags, x.block = off + j := by
    intro j b' hj x hx
    obtain ⟨_, _, _, _, ⟨d, _, _, hd⟩, _⟩ := hfacts j b' hj
    rw [hd] at hx
    exact thicknessCheck_block _ _ _ x hx
  induction bs generalizing off i with
  | nil => simp at hb
  | cons a bs ih =>
    rw [List.flatMap_cons, List.filter_append]
    cases i with
    | zero =>
      simp only [List.getElem?_cons_zero, Option.some.injEq] at hb
      subst hb
      have h1 : a.diags.filter (fun x => decide (x.block = off + 0)) = a.diags := by
        rw [List.filter_eq_self]
        intro x hx
        simpa using hblk 0 a List.getElem?_cons_zero x hx
      have h2 : (bs.flatMap (fun blk => blk.diags)).filter
          (fun x => decide (x.block = off + 0)) = [] := by
        rw [List.filter_eq_nil_iff]
        intro x hx
        obtain ⟨b', hb', hxb⟩ := List.mem_flatMap.1 hx
        obtain ⟨j, hj⟩ := List.getElem?_of_mem hb'
        have := hblk (j + 1) b' (by simpa using hj) x hxb
        simp only [decide_eq_true_eq]
        omega
      rw [h1, h2, List.append_nil]
    | succ i =>
      simp only [List.getElem?_cons_succ] at hb
      have h1 : a.diags.filter (fun x => decide (x.block = off + (i + 1))) = [] := by
        rw [List.filter_eq_nil_iff]
        intro x hx
        have := hblk 0 a List.getElem?_cons_zero x hx
        simp only [decide_eq_true_eq]
        omega
      rw [h1, List.nil_append]
      have e : off + (i + 1) = off + 1 + i := by omega
      rw [e]
      apply ih (off + 1) i
      · intro j b' hj
        have := hfacts (j + 1) b' (by simpa using hj)
        have e' : off + (j + 1) = off + 1 + j := by omega
        rw [← e']; exact this
      · exact hb
      · intro j b' hj x hx
        have := hblk (j + 1) b' (by simpa using hj) x hx
        omega

/-- C6: the build has one block record per entry of `layers_`, and for every block `i`,
with `total` the sum of `thick_[layerType_[ly]]` over its layers and
`declared = layerThick_[i]`, the messages logged for block `i` are none when
`|total - declared| < 1e-5`, and otherwise exactly one: an error when `total > declared`, a
warning when `total < declared`. A total equal to the declared thickness logs nothing and a
total 0.1 above logs exactly one error; no message names a block outside the list. -/
theorem constructLayers_thickness_diagnostics (cfg : Config) (cn : List Int)
    (h : WellFormed cfg cn) :
    ∃ out, constructLayers cfg cn = some out ∧
      out.blocks.length = cfg.layers_.length ∧
      (∀ x ∈ out.diags, x.block < cfg.layers_.length) ∧
      ∀ (i : Nat), i < cfg.layers_.length →
        ∃ b c declared, out.blocks[i]? = some b ∧
          cfg.layers_[i]? = some c ∧ cfg.layerThick_[i]? = some declared ∧
          b.thickTot = layerSum cfg (firstLayerOf cfg i) c.toNat ∧
          out.diags.filter (fun x => decide (x.block = i)) = b.diags ∧
          (|b.thickTot - declared| < 0.00001 → b.diags = []) ∧
          (¬ |b.thickTot - declared| < 0.00001 → declared < b.thickTot ∨ b.thickTot < declared) ∧
          (¬ |b.thickTot - declared| < 0.00001 → declared < b.thickTot →
            b.diags = [{ level := .error, block := i, declared := declared,
                         total := b.thickTot }]) ∧
          (¬ |b.thickTot - declared| < 0.00001 → b.thickTot < declared →
            b.diags = [{ level := .warning, block := i, declared := declared,
                         total := b.thickTot }]) ∧
          (b.thickTot = declared → b.diags = []) ∧
          (b.thickTot = declared + 0.1 →
            b.diags = [{ level := .error, block := i, declared := declared,
                         total := b.thickTot }]) := by
  obtain ⟨out, ho, hlen, _, _, _, _, hfacts⟩ := constructLayers_spec cfg cn h
  refine ⟨out, ho, hlen, ?_, ?_⟩
  · intro x hx
    obtain ⟨b', hb', hxb⟩ := List.mem_flatMap.1 hx
    obtain ⟨j, hj⟩ := List.getElem?_of_mem hb'
    obtain ⟨_, _, _, _, ⟨d, _, _, hd⟩, _⟩ := hfacts j b' hj
    rw [hd] at hxb
    rw [thicknessCheck_block _ _ _ x hxb, ← hlen]
    exact (List.getElem?_eq_some.1 hj).1
  intro i hi
  have hb : out.blocks[i]? = some out.blocks[i] := List.getElem?_eq_getElem (by omega)
  generalize out.blocks[i] = b at hb
  obtain ⟨_, _, hlm, _, ⟨d, hd, _, hdiag⟩, ⟨c, hc, _, _, _, htot⟩, _, _⟩ := hfacts i b hb
  have hfilter := filter_diags_blocks cfg out.blocks 0 i
    (fun j b' hj => by simpa using hfacts j b' hj) b hb
  simp only [Nat.zero_add] at hfilter
  refine ⟨b, c, d, hb, hc, hd, by rw [htot, hlm], hfilter, ?_, ?_, ?_, ?_, ?_, ?_⟩
  · intro hlt
    rw [hdiag, thicknessCheck, if_pos hlt]
  · intro hnot
    rcases lt_trichotomy b.thickTot d with hlt | heq | hgt
    · exact Or.inr hlt
    · exact absurd (by rw [heq, sub_self, abs_zero]; norm_num) hnot
    · exact Or.inl hgt
  · intro hnot hgt
    rw [hdiag, thicknessCheck, if_neg hnot, if_pos hgt]
  · intro hnot hlt
    rw [hdiag, thicknessCheck, if_neg hnot, if_neg (not_lt.2 hlt.le), if_pos hlt]
  · intro heq
    rw [hdiag, thicknessCheck, if_pos (by rw [heq, sub_self, abs_zero]; norm_num)]
  · intro heq
    have hnot : ¬ |b.thickTot - d| < 0.00001 := by
      rw [heq, add_sub_cancel_left, abs_of_pos (by norm_num)]
      norm_num
    rw [hdiag, thicknessCheck, if_neg hnot, if_pos (by rw [heq]; norm_num)]

theorem scenario_layerSum : layerSum scenario (firstLayerOf scenario 0) (2 : Int).toNat = 0.2 := by
  have h2 : (2 : Int).toNat = 2 := rfl
  rw [h2]
  simp [layerSum, thickAt, firstLayerOf, idx, scenario, List.range_succ]
  norm_num

theorem thickLayers_layerSum :
    layerSum thickLayers (firstLayerOf thickLayers 0) (2 : Int).toNat = 0.2 + 0.1 := by
  have h2 : (2 : Int).toNat = 2 := rfl
  rw [h2]
  simp [layerSum, thickAt, firstLayerOf, idx, thickLayers, scenario, List.range_succ]
  norm_num

/-- Witness of `constructLayers_thickness_diagnostics`: in `scenario` the block total 0.2
equals the declared thickness and nothing is logged for block 0; in `thickLayers` the total is
0.1 above and exactly one error is logged for block 0. -/
theorem constructLayers_thickness_diagnostics_witness :
    (∃ out, constructLayers scenario [1, 1] = some out ∧ out.blocks.length = 1 ∧
      out.diags.filter (fun x => decide (x.block = 0)) = []) ∧
    (∃ out, constructLayers thickLayers [1, 1] = some out ∧ out.blocks.length = 1 ∧
      out.diags.filter (fun x => decide (x.block = 0))
        = [{ level := .error, block := 0, declared := 0.2, total := 0.2 + 0.1 }]) := by
  constructor
  · obtain ⟨out, ho, hlen, _, hb⟩ := constructLayers_thickness_diagnostics scenario [1, 1] (by decide)
    obtain ⟨b, c, d, _, hc, hd, htot, hf, _, _, _, _, heq, _⟩ := hb 0 (by decide)
    have hc2 : c = 2 := by
      have h2 : scenario.layers_[0]? = some 2 := rfl
      rw [h2] at hc; injection hc with hc; exact hc.symm
    have hd2 : d = 0.2 := by
      have h2 : scenario.layerThick_[0]? = some (0.2 : ℚ) := rfl
      rw [h2] at hd; injection hd with hd; exact hd.symm
    subst hc2 hd2
    rw [scenario_layerSum] at htot
    exact ⟨out, ho, hlen, by rw [hf]; exact heq htot⟩
  · obtain ⟨out, ho, hlen, _, hb⟩ := constructLayers_thickness_diagnostics thickLayers [1, 1] (by decide)
    obtain ⟨b, c, d, _, hc, hd, htot, hf, _, _, _, _, _, herr⟩ := hb 0 (by decide)
    have hc2 : c = 2 := by
      have h2 : thickLayers.layers_[0]? = some 2 := rfl
      rw [h2] at hc; injection hc with hc; exact hc.symm
    have hd2 : d = 0.2 := by
      have h2 : thickLayers.layerThick_[0]? = some (0.2 : ℚ) := rfl
      rw [h2] at hd; injection hd with hd; exact hd.symm
    subst hc2 hd2
    rw [thickLayers_layerSum] at htot
    refine ⟨out, ho, hlen, ?_⟩
    rw [hf, herr htot, htot]

theorem scenario_wellFormed : WellFormed scenario [1, 1] := by decide

theorem scenario_rMax : rMax scenario 320 = some 300 := by
  simp [rMax, rMaxLoop, scenario]

/-- C9 (amended): block `i` has front position `z_front(i) = zMinBlock_` plus the declared
thicknesses of the earlier blocks and back position `z_front(i) + layerThick_[i]`; the running
z after the last block is `zMinBlock_` plus the declared thicknesses of all blocks; `routF` is
`rMax(z_front(i))`, a sensitive layer is a tubs of outer radius `routF` and an absorber layer a
polyhedra of outer radius `routF * cos(pi/sectors_) - 0.01`. For one block of declared
thickness 0.2 starting at 320, z advances from 320 to 320.2. -/
theorem constructLayers_block_positions (cfg : Config) (cn : List Int) (h : WellFormed cfg cn) :
    ∃ out, constructLayers cfg cn = some out ∧
      out.blocks.length = cfg.layers_.length ∧
      (∀ (i : Nat) (b : BlockRecord), out.blocks[i]? = some b →
        b.zi = zFrontOf cfg i ∧
        (∃ d, cfg.layerThick_[i]? = some d ∧ b.zo = zFrontOf cfg i + d) ∧
        rMax cfg (zFrontOf cfg i) = some b.routF ∧
        ∀ r ∈ b.layers, ∃ s, idx cfg.layerSense_ r.ly = some s ∧
          (s ≠ 0 → r.solid.outerRadii = [b.routF]) ∧
          (s = 0 → r.solid.outerRadii
            = [b.routF * cfg.cosAlpha - tol, b.routF * cfg.cosAlpha - tol])) ∧
      out.zi = cfg.zMinBlock_ + (cfg.layerThick_.take cfg.layers_.length).sum ∧
      (cfg.layers_.length = 1 → cfg.zMinBlock_ = 320 → cfg.layerThick_[0]? = some (0.2 : ℚ) →
        (∀ b, out.blocks[0]? = some b → b.zi = 320) ∧ out.zi = 320.2) := by
  obtain ⟨out, ho, hlen, _, _, hzi, _, hfacts⟩ := constructLayers_spec cfg cn h
  refine ⟨out, ho, hlen, ?_, hzi, ?_⟩
  · intro i b hb
    obtain ⟨_, hz, _, hr, ⟨d, hd, hzo, _⟩, _, _, hl⟩ := hfacts i b hb
    refine ⟨hz, ⟨d, hd, by rw [hzo, hz]⟩, by rw [← hz]; exact hr, ?_⟩
    intro r hr
    obtain ⟨_, _, _, _, _, _, s, sB, hs, _, _, h0, h1⟩ := hl r hr
    refine ⟨s, hs, ?_, ?_⟩
    · intro hne
      rw [(h1 hne).2]; rfl
    · intro he
      rw [(h0 he).2]; rfl
  · intro h1 hz0 ht
    constructor
    · intro b hb
      rw [(hfacts 0 b hb).2.1, zFrontOf, hz0]
      simp
    · rw [hzi, zFrontOf, h1, hz0, sum_take_succ_rat _ 0 _ ht]
      norm_num

/-- Witness of `constructLayers_block_positions` at `scenario`: z advances from 320 to 320.2. -/
theorem constructLayers_block_positions_witness :
    ∃ out, constructLayers scenario [1, 1] = some out ∧
      (∀ b, out.blocks[0]? = some b → b.zi = 320) ∧ out.zi = 320.2 := by
  obtain ⟨out, ho, _, _, _, hex⟩ := constructLayers_block_positions scenario [1, 1] (by decide)
  exact ⟨out, ho, hex rfl rfl rfl⟩

/-- C9 (counterexample): in `scenario` the envelope at the block front is 300, and the
absorber layer of block 0 is built with outer radius 300 * 0.5 - 0.01 = 149.99. -/
theorem constructLayers_absorber_outer_radius :
    ∃ out b r, constructLayers scenario [1, 1] = some out ∧ out.blocks[0]? = some b ∧
      r ∈ b.layers ∧ rMax scenario (zFrontOf scenario 0) = some 300 ∧
      r.solid.outerRadii = [14999 / 100, 14999 / 100] := by
  obtain ⟨out, ho, hlen, _, _, _, _, hfacts⟩ := constructLayers_spec scenario [1, 1]
    scenario_wellFormed
  have h0 : 0 < out.blocks.length := by rw [hlen]; decide
  have hb : out.blocks[0]? = some out.blocks[0] := List.getElem?_eq_getElem h0
  obtain ⟨_, hz, hlm, hr, _, ⟨c, hc, _, _, hlys, _⟩, _, hl⟩ := hfacts 0 _ hb
  have hz320 : zFrontOf scenario 0 = 320 := by simp [zFrontOf, scenario]
  have hc2 : c = 2 := by
    have : scenario.layers_[0]? = some 2 := rfl
    rw [this] at hc
    injection hc with hc
    exact hc.symm
  subst hc2
  have hlys' : (out.blocks[0].layers.map (fun r => r.ly)) = [0, 1] := by
    rw [hlys, hlm]
    simp [firstLayerOf, List.range_succ]
  obtain ⟨r, hrmem, hrly⟩ : ∃ r ∈ out.blocks[0].layers, r.ly = 0 := by
    have : (0 : Int) ∈ out.blocks[0].layers.map (fun r => r.ly) := by rw [hlys']; simp
    obtain ⟨r, hr1, hr2⟩ := List.mem_map.1 this
    exact ⟨r, hr1, hr2⟩
  obtain ⟨_, _, _, _, _, _, s, sB, hs, _, _, hs0, _⟩ := hl r hrmem
  have hsense : s = 0 := by
    rw [hrly] at hs
    have : idx scenario.layerSense_ 0 = some 0 := rfl
    rw [this] at hs
    injection hs with hs
    exact hs.symm
  have hrout : out.blocks[0].routF = 300 := by
    rw [hz, hz320, scenario_rMax] at hr
    injection hr with hr
    exact hr.symm
  refine ⟨out, _, r, ho, hb, hrmem, by rw [hz320]; exact scenario_rMax, ?_⟩
  rw [(hs0 hsense).2, hrout]
  simp only [Solid.outerRadii, tol, scenario]
  norm_num


/-! ## The envelope outside the breakpoints -/

/-- C13: for a non-empty breakpoint table of equal lengths with `zFront_` sorted ascending
and `z` at or above the last `zFront_`, `rMax z` is exactly
`rMaxFront_[last] + slopeT_[last] * (z - zFront_[last])`. -/
theorem rMax_beyond_last_breakpoint (cfg : Config) (z : ℚ)
    (hz : cfg.zFront_.length = cfg.slopeT_.length)
    (hr : cfg.rMaxFront_.length = cfg.slopeT_.length)
    (hs : cfg.zFront_.Sorted (· ≤ ·)) (hne : 0 < cfg.slopeT_.length)
    (hlast : cfg.zFront_[cfg.slopeT_.length - 1] ≤ z) :
    rMax cfg z = some (cfg.rMaxFront_[cfg.slopeT_.length - 1]
      + cfg.slopeT_[cfg.slopeT_.length - 1] * (z - cfg.zFront_[cfg.slopeT_.length - 1])) := by
  have h := (rMaxLoop_spec cfg z hz hr hs cfg.slopeT_.length 0 0 (by omega)).1
    (cfg.slopeT_.length - 1) (by omega) (Nat.zero_le _) hlast
    (fun i hi hlt => by omega)
  rw [rMax, h, mul_comm]

/-- Witness of `rMax_beyond_last_breakpoint` on `twoSlopes`: at z = 400 the envelope is
150 + 0.5 * 50. -/
theorem rMax_beyond_last_breakpoint_witness : rMax twoSlopes 400 = some 175 := by
  have h := rMax_beyond_last_breakpoint twoSlopes 400 rfl rfl
    (by simp [twoSlopes, scenario]; norm_num) (by decide)
    (by simp [twoSlopes, scenario]; norm_num)
  rw [h]
  simp [twoSlopes, scenario]
  norm_num

/-- C14: for every breakpoint table, sorted or not, `rMax z` is 0 when the table is empty and
when `z` is strictly below the first breakpoint's `zFront_`. -/
theorem rMax_before_first_breakpoint (cfg : Config) (z : ℚ) :
    (cfg.slopeT_ = [] → rMax cfg z = some 0) ∧
    (∀ z0, cfg.zFront_[0]? = some z0 → z < z0 → rMax cfg z = some 0) := by
  constructor
  · intro h
    simp [rMax, h, rMaxLoop]
  · intro z0 h0 hlt
    unfold rMax
    cases hn : cfg.slopeT_.length with
    | zero => rfl
    | succ n => simp [rMaxLoop, h0, hlt]


/-- Witness of `rMax_before_first_breakpoint` on the unsorted table `unsortedSlopes`: z = 320
is below the first `zFront_` (350), so the envelope is 0 although a later breakpoint (300)
lies below z. -/
theorem rMax_before_first_breakpoint_witness : rMax unsortedSlopes 320 = some 0 :=
  (rMax_before_first_breakpoint unsortedSlopes 320).2 350 rfl (by norm_num)

/-! ## The grid enumeration and the copy numbers of the wafers -/

theorem collect_append {α β : Type} (f : α → Option (List β)) (a b : List α) :
    collect f (a ++ b) = (collect f a).bind (fun x => (collect f b).bind (fun y => some (x ++ y))) := by
  induction a with
  | nil =>
    cases h : collect f b <;> simp [collect, h]
  | cons x a ih =>
    rw [List.cons_append]
    simp only [collect]
    rw [ih]
    cases f x <;> cases collect f a <;> cases collect f b <;> simp

theorem collect_map {α β γ : Type} (f : α → Option (List β)) (g : γ → α) (l : List γ) :
    collect f (l.map g) = collect (fun c => f (g c)) l := by
  induction l with
  | nil => rfl
  | cons x l ih => simp only [List.map_cons, collect, ih]

theorem collect_flatMap_pairs {β : Type} (h : Int → Int → Option (List β)) (us vs : List Int) :
    collect (fun u => collect (fun v => h u v) vs) us
      = collect (fun p => h p.1 p.2) (us.flatMap (fun u => vs.map (fun v => (u, v)))) := by
  induction us with
  | nil => rfl
  | cons u us ih =>
    rw [List.flatMap_cons, collect_append, collect_map, ← ih]
    simp only [collect]
    rfl

theorem countP_eq_one_of_nodup {α : Type} [DecidableEq α] (l : List α) (hl : l.Nodup) (a : α)
    (ha : a ∈ l) : l.countP (fun p => decide (p = a)) = 1 := by
  induction l with
  | nil => simp at ha
  | cons x l ih =>
    rw [List.nodup_cons] at hl
    by_cases hx : x = a
    · subst hx
      rw [List.countP_cons_of_pos _ _ (by simp)]
      have : l.countP (fun p => decide (p = x)) = 0 := by
        rw [List.countP_eq_zero]
        intro b hb
        simp only [decide_eq_true_eq]
        intro hbx
        exact hl.1 (hbx ▸ hb)
      rw [this]
    · rw [List.countP_cons_of_neg _ _ (by simpa using hx)]
      rcases List.mem_cons.1 ha with h | h
      · exact absurd h.symm hx
      · exact ih hl.2 h

theorem length_intRange (lo hi : Int) : (intRange lo hi).length = (hi - lo + 1).toNat := by
  simp [intRange]

theorem gridPairs_eq_product (N : Int) :
    gridPairs N = intRange (-N) N ×ˢ intRange (-N) N := rfl

/-- C12: for every bound `N >= 0` the double loop of `positionSensitive` visits exactly the
pairs `(u, v)` with `|u| <= N` and `|v| <= N`, each exactly once: `(2N+1)^2` pairwise distinct
pairs, a list that depends on `N` alone (`gridPairs N`), over which `positionSensitive` runs
its loop body. -/
theorem gridPairs_enumeration (N : Int) (hN : 0 ≤ N) :
    (∀ u v : Int, (u, v) ∈ gridPairs N ↔ |u| ≤ N ∧ |v| ≤ N) ∧
    (gridPairs N).Nodup ∧
    (∀ u v : Int, |u| ≤ N → |v| ≤ N →
      (gridPairs N).countP (fun p => decide (p = (u, v))) = 1) ∧
    ((gridPairs N).length : Int) = (2 * N + 1) ^ 2 ∧
    ∀ (cfg : Config) (rin rout : ℚ) (layertype : Int), gridBound cfg rout = N →
      positionSensitive cfg rin rout layertype
        = collect (fun p => hexagon cfg rin rout layertype (halfPitch cfg)
            (2.0 * halfPitch cfg / 3) (0.75 * (2.0 * halfPitch cfg / 3)) p.1 p.2)
          (gridPairs N) := by
  have hmem : ∀ u v : Int, (u, v) ∈ gridPairs N ↔ |u| ≤ N ∧ |v| ≤ N := by
    intro u v
    rw [gridPairs_eq_product, List.mem_product, mem_intRange, mem_intRange, abs_le, abs_le]
  have hnd : (gridPairs N).Nodup := by
    rw [gridPairs_eq_product]
    exact (nodup_intRange _ _).product (nodup_intRange _ _)
  refine ⟨hmem, hnd, ?_, ?_, ?_⟩
  · intro u v hu hv
    exact countP_eq_one_of_nodup _ hnd _ ((hmem u v).2 ⟨hu, hv⟩)
  · rw [gridPairs_eq_product, List.length_product, length_intRange]
    have : ((N - -N + 1).toNat : Int) = 2 * N + 1 := by
      rw [Int.toNat_of_nonneg (by omega)]; ring
    push_cast
    rw [this]
    ring
  · intro cfg rin rout layertype hb
    unfold positionSensitive
    simp only [hb]
    exact collect_flatMap_pairs _ _ _

/-- Witness of `gridPairs_enumeration` at `N = 2`: 25 distinct pairs. -/
theorem gridPairs_enumeration_witness :
    (gridPairs 2).Nodup ∧ ((gridPairs 2).length : Int) = 25 := by
  obtain ⟨_, hnd, _, hlen, _⟩ := gridPairs_enumeration 2 (by decide)
  exact ⟨hnd, by rw [hlen]; norm_num⟩

/-- C15: for `|u| <= 99` and `|v| <= 99` the copy number `id = copyId u v` determines `(u, v)`:
`|u| = id mod 100`, `|v| = (id div 100) mod 100`, `u < 0` iff `(id div 10000) mod 10 = 1`,
`v < 0` iff `id div 100000 = 1`; so the encoding is injective on these coordinates, and all
copy numbers placed by one call of `positionSensitive` are pairwise distinct whenever the
loop bound `N` is at most 99. -/
theorem copyId_decode :
    (∀ u v : Int, |u| ≤ 99 → |v| ≤ 99 →
      copyId u v % 100 = |u| ∧ (copyId u v / 100) % 100 = |v| ∧
      (u < 0 ↔ (copyId u v / 10000) % 10 = 1) ∧ (v < 0 ↔ copyId u v / 100000 = 1) ∧
      u = (if (copyId u v / 10000) % 10 = 1 then -(copyId u v % 100) else copyId u v % 100) ∧
      v = (if copyId u v / 100000 = 1 then -((copyId u v / 100) % 100)
            else (copyId u v / 100) % 100)) ∧
    (∀ u v u' v' : Int, |u| ≤ 99 → |v| ≤ 99 → |u'| ≤ 99 → |v'| ≤ 99 →
      copyId u v = copyId u' v' → u = u' ∧ v = v') ∧
    (∀ (cfg : Config) (rin rout : ℚ) (layertype : Int), 6 ≤ cfg.wafers_.length →
      gridBound cfg rout ≤ 99 →
      ∃ out, positionSensitive cfg rin rout layertype = some out ∧
        (∀ p ∈ out, p.copy = copyId p.u p.v ∧ |p.u| ≤ 99 ∧ |p.v| ≤ 99) ∧
        ∀ p ∈ out, ∀ q ∈ out, (p.u, p.v) ≠ (q.u, q.v) → p.copy ≠ q.copy) := by
  refine ⟨?_, ?_, ?_⟩
  · intro u v hu hv
    unfold copyId
    simp only
    rcases abs_cases u with ⟨h1, h2⟩ | ⟨h1, h2⟩ <;>
    rcases abs_cases v with ⟨h3, h4⟩ | ⟨h3, h4⟩ <;>
    rw [h1] at hu ⊢ <;> rw [h3] at hv ⊢ <;>
    split_ifs <;> omega
  · intro u v u' v' hu hv hu' hv' h
    exact copyId_injective u v u' v' hu hv hu' hv' h
  · intro cfg rin rout layertype hw hN
    obtain ⟨out, hout⟩ : ∃ out, positionSensitive cfg rin rout layertype = some out :=
      ⟨_, positionSensitive_eq cfg rin rout layertype hw⟩
    have hfacts : ∀ p ∈ out, p.copy = copyId p.u p.v ∧ |p.u| ≤ 99 ∧ |p.v| ≤ 99 := by
      intro p hp
      obtain ⟨u, v, hu, hv, hc⟩ := (mem_positionSensitive cfg rin rout layertype hw _ hout p).1 hp
      have hp' := cell_mem cfg rin rout layertype u v hw p hc
      rw [hp'.1, hp'.2.1]
      exact ⟨hp'.2.2.2.1, hu.trans hN, hv.trans hN⟩
    refine ⟨out, hout, hfacts, ?_⟩
    intro p hp q hq hne heq
    obtain ⟨e1, b1, b2⟩ := hfacts p hp
    obtain ⟨e2, b3, b4⟩ := hfacts q hq
    rw [e1, e2] at heq
    obtain ⟨h1, h2⟩ := copyId_injective _ _ _ _ b1 b2 b3 b4 heq
    exact hne (by rw [h1, h2])

/-- Witness of `copyId_decode` at `(u, v) = (-7, 12)`, whose copy number is 11207. -/
theorem copyId_decode_witness :
    copyId (-7) 12 = 11207 ∧ copyId (-7) 12 % 100 = |(-7 : Int)| ∧
      (copyId (-7) 12 / 100) % 100 = |(12 : Int)| := by
  obtain ⟨h1, h2, _⟩ := copyId_decode.1 (-7) 12 (by decide) (by decide)
  exact ⟨by decide, h1, h2⟩


/-! ## The geometry of the hexagonal grid -/

theorem centre_sqDist (r : ℚ) (u v u' v' : Int) :
    ((centre r u v).1 - (centre r u' v').1) * ((centre r u v).1 - (centre r u' v').1)
        + 3 * (((centre r u v).2 - (centre r u' v').2) * ((centre r u v).2 - (centre r u' v').2))
      = 4 * r ^ 2 * (((u - u' : Int) : ℚ) ^ 2 - ((u - u' : Int) : ℚ) * ((v - v' : Int) : ℚ)
          + ((v - v' : Int) : ℚ) ^ 2) := by
  simp only [centre]
  push_cast
  ring

theorem eisenstein_pos (a b : Int) (h : a ≠ 0 ∨ b ≠ 0) : 1 ≤ a ^ 2 - a * b + b ^ 2 := by
  rcases h with h | h
  · have h1 : 1 ≤ a ^ 2 := by
      have := sq_nonneg (a - 1)
      have := sq_nonneg (a + 1)
      rcases lt_or_gt_of_ne h with h' | h' <;> nlinarith
    nlinarith [sq_nonneg (a - 2 * b), sq_nonneg (2 * b - a), sq_nonneg (a - b), sq_nonneg b]
  · have h1 : 1 ≤ b ^ 2 := by
      rcases lt_or_gt_of_ne h with h' | h' <;> nlinarith
    nlinarith [sq_nonneg (b - 2 * a), sq_nonneg (a - b), sq_nonneg a]

/-- C16: for `r > 0` and distinct grid coordinates `(u, v)`, `(u', v')` the centres computed by
`positionSensitive` have squared distance `4 r^2 (a^2 - a b + b^2)` with `a = u - u'`,
`b = v - v'`, hence are at distance at least `2r` and are distinct; every placed wafer sits at
the centre of its grid coordinate. -/
theorem centres_separated (r : ℚ) (hr : 0 < r) (u v u' v' : Int) (hne : (u, v) ≠ (u', v')) :
    ((((centre r u v).1 - (centre r u' v').1 : ℚ) : ℝ) ^ 2
        + ((((centre r u v).2 - (centre r u' v').2 : ℚ) : ℝ) * Real.sqrt 3) ^ 2
      = 4 * (r : ℝ) ^ 2 * (((u - u' : Int) : ℝ) ^ 2 - ((u - u' : Int) : ℝ) * ((v - v' : Int) : ℝ)
          + ((v - v' : Int) : ℝ) ^ 2)) ∧
    2 * (r : ℝ) ≤ Real.sqrt ((((centre r u v).1 - (centre r u' v').1 : ℚ) : ℝ) ^ 2
        + ((((centre r u v).2 - (centre r u' v').2 : ℚ) : ℝ) * Real.sqrt 3) ^ 2) ∧
    centre r u v ≠ centre r u' v' ∧
    ∀ (cfg : Config) (rin rout : ℚ) (layertype : Int), 6 ≤ cfg.wafers_.length →
      halfPitch cfg = r →
      ∃ out, positionSensitive cfg rin rout layertype = some out ∧
        ∀ p ∈ out, (p.xpos, p.ypos) = centre r p.u p.v := by
  have hab : u - u' ≠ 0 ∨ v - v' ≠ 0 := by
    by_contra hcon
    push_neg at hcon
    apply hne
    have h1 : u = u' := by omega
    have h2 : v = v' := by omega
    rw [h1, h2]
  have hE := eisenstein_pos (u - u') (v - v') hab
  have hEq : (1 : ℚ) ≤ ((u - u' : Int) : ℚ) ^ 2 - ((u - u' : Int) : ℚ) * ((v - v' : Int) : ℚ)
      + ((v - v' : Int) : ℚ) ^ 2 := by exact_mod_cast hE
  have hsq := centre_sqDist r u v u' v'
  have hcast := sqDist_cast ((centre r u v).1 - (centre r u' v').1)
    ((centre r u v).2 - (centre r u' v').2)
  have hr' : (0 : ℝ) < (r : ℝ) := by exact_mod_cast hr
  have hge : (4 * r ^ 2 : ℚ) ≤ ((centre r u v).1 - (centre r u' v').1)
      * ((centre r u v).1 - (centre r u' v').1)
      + 3 * (((centre r u v).2 - (centre r u' v').2)
        * ((centre r u v).2 - (centre r u' v').2)) := by
    rw [hsq]
    nlinarith [sq_nonneg r, mul_pos hr hr]
  refine ⟨?_, ?_, ?_, ?_⟩
  · rw [← hcast, hsq]
    push_cast
    ring
  · rw [← hcast]
    apply Real.le_sqrt_of_sq_le
    have : ((4 * r ^ 2 : ℚ) : ℝ) ≤ _ := (Rat.cast_le (K := ℝ)).2 hge
    push_cast at this ⊢
    nlinarith
  · intro heq
    rw [heq] at hge
    simp only [sub_self, mul_zero, add_zero] at hge
    nlinarith [mul_pos hr hr]
  · intro cfg rin rout layertype hw hp
    refine ⟨_, positionSensitive_eq cfg rin rout layertype hw, ?_⟩
    intro p hmem
    obtain ⟨a, b, _, _, hc⟩ := (mem_positionSensitive cfg rin rout layertype hw _
      (positionSensitive_eq cfg rin rout layertype hw) p).1 hmem
    obtain ⟨e1, e2, _, _, hx, hy, _⟩ := cell_mem cfg rin rout layertype a b hw p hc
    rw [hx, hy, e1, e2, ← hp]
    rfl

/-- Witness of `centres_separated` for the neighbours `(0, 0)` and `(1, 0)` at `r = 1`. -/
theorem centres_separated_witness :
    2 * ((1 : ℚ) : ℝ) ≤ Real.sqrt ((((centre 1 0 0).1 - (centre 1 1 0).1 : ℚ) : ℝ) ^ 2
        + ((((centre 1 0 0).2 - (centre 1 1 0).2 : ℚ) : ℝ) * Real.sqrt 3) ^ 2) :=
  (centres_separated 1 (by norm_num) 0 0 1 0 (by decide)).2.1


theorem sqrt_eq_circumradius (r : ℚ) (hr : 0 < r) (x y : ℚ)
    (h : x * x + 3 * (y * y) = 4 * r ^ 2 / 3) :
    Real.sqrt ((x : ℝ) ^ 2 + ((y : ℝ) * Real.sqrt 3) ^ 2) = 2 * (r : ℝ) / Real.sqrt 3 := by
  have hr' : (0 : ℝ) < (r : ℝ) := by exact_mod_cast hr
  have h3 : Real.sqrt 3 ^ 2 = 3 := Real.sq_sqrt (by norm_num)
  have hpos : (0 : ℝ) < Real.sqrt 3 := Real.sqrt_pos.2 (by norm_num)
  rw [← sqDist_cast, h]
  have : ((4 * r ^ 2 / 3 : ℚ) : ℝ) = (2 * (r : ℝ) / Real.sqrt 3) ^ 2 := by
    push_cast
    rw [div_pow, h3]
    ring
  rw [this]
  exact Real.sqrt_sq (by positivity)

theorem hexCorners_eq (r : ℚ) (u v : Int) :
    hexCorners r u v =
      [((centre r u v).1 + r, (centre r u v).2 + 0.5 * (2.0 * r / 3)),
       ((centre r u v).1, (centre r u v).2 + 2.0 * r / 3),
       ((centre r u v).1 - r, (centre r u v).2 + 0.5 * (2.0 * r / 3)),
       ((centre r u v).1 - r, (centre r u v).2 - 0.5 * (2.0 * r / 3)),
       ((centre r u v).1, (centre r u v).2 - 2.0 * r / 3),
       ((centre r u v).1 + r, (centre r u v).2 - 0.5 * (2.0 * r / 3))] := rfl

/-- C17: for `r > 0` the six corners computed for the hexagon `(u, v)` start at the right-upper
corner `(xpos + r, ypos + R/2)`, each lies at distance exactly `R = 2r/sqrt 3` from the centre,
consecutive corners (cyclically) are at distance `R` from each other, and the corners turn
counter-clockwise around the centre (positive cross product of consecutive corner vectors). -/
theorem hexCorners_regular (r : ℚ) (hr : 0 < r) (u v : Int) :
    (hexCorners r u v).length = 6 ∧
    (hexCorners r u v)[0]? = some ((centre r u v).1 + r, (centre r u v).2 + 0.5 * (2.0 * r / 3)) ∧
    (∀ c ∈ hexCorners r u v,
      Real.sqrt (((c.1 - (centre r u v).1 : ℚ) : ℝ) ^ 2
        + (((c.2 - (centre r u v).2 : ℚ) : ℝ) * Real.sqrt 3) ^ 2)
        = 2 * (r : ℝ) / Real.sqrt 3) ∧
    ∀ (k : Nat) (c c' : ℚ × ℚ), k < 6 → (hexCorners r u v)[k]? = some c →
      (hexCorners r u v)[(k + 1) % 6]? = some c' →
      Real.sqrt (((c'.1 - c.1 : ℚ) : ℝ) ^ 2 + (((c'.2 - c.2 : ℚ) : ℝ) * Real.sqrt 3) ^ 2)
          = 2 * (r : ℝ) / Real.sqrt 3 ∧
        0 < ((c.1 - (centre r u v).1 : ℚ) : ℝ) * (((c'.2 - (centre r u v).2 : ℚ) : ℝ) * Real.sqrt 3)
          - ((c'.1 - (centre r u v).1 : ℚ) : ℝ)
            * (((c.2 - (centre r u v).2 : ℚ) : ℝ) * Real.sqrt 3) := by
  have hr' : (0 : ℝ) < (r : ℝ) := by exact_mod_cast hr
  have hpos : (0 : ℝ) < Real.sqrt 3 := Real.sqrt_pos.2 (by norm_num)
  have hrr : (0 : ℝ) < (r : ℝ) * (r : ℝ) := mul_pos hr' hr'
  have key : ∀ (a b : ℚ), 0 < a * b →
      (0 : ℝ) < (a : ℝ) * (b : ℝ) * Real.sqrt 3 := by
    intro a b hab
    have : (0 : ℝ) < (a : ℝ) * (b : ℝ) := by exact_mod_cast hab
    positivity
  refine ⟨rfl, rfl, ?_, ?_⟩
  · intro c hc
    rw [hexCorners_eq] at hc
    simp only [List.mem_cons, List.mem_singleton, List.not_mem_nil, or_false] at hc
    rcases hc with h | h | h | h | h | h <;> subst h <;>
      exact sqrt_eq_circumradius r hr _ _ (by ring)
  · intro k c c' hk hc hc'
    rw [hexCorners_eq] at hc hc'
    have hk' : k = 0 ∨ k = 1 ∨ k = 2 ∨ k = 3 ∨ k = 4 ∨ k = 5 := by omega
    rcases hk' with h | h | h | h | h | h <;> subst h <;>
      simp only [List.getElem?_cons_zero, List.getElem?_cons_succ, Option.some.injEq,
        Nat.reduceAdd, Nat.reduceMod] at hc hc' <;>
      subst hc <;> subst hc' <;>
      refine ⟨sqrt_eq_circumradius r hr _ _ (by ring), ?_⟩ <;>
      · have := key r r (mul_pos hr hr)
        push_cast
        nlinarith

/-- Witness of `hexCorners_regular` for the hexagon `(0, 0)` at `r = 1`. -/
theorem hexCorners_regular_witness :
    (hexCorners 1 0 0).length = 6 ∧
    ∀ c ∈ hexCorners 1 0 0,
      Real.sqrt (((c.1 - (centre 1 0 0).1 : ℚ) : ℝ) ^ 2
        + (((c.2 - (centre 1 0 0).2 : ℚ) : ℝ) * Real.sqrt 3) ^ 2)
        = 2 * ((1 : ℚ) : ℝ) / Real.sqrt 3 :=
  ⟨(hexCorners_regular 1 (by norm_num) 0 0).1, (hexCorners_regular 1 (by norm_num) 0 0).2.2.1⟩

/-! ## Stacking of the layers and safety of the element accesses -/

theorem layer_thickness (cfg : Config) (k : Nat) (b : BlockRecord) (hb : BlockFacts cfg k b)
    (j : Nat) (r : LayerRecord) (hr : b.layers[j]? = some r) :
    r.ly = firstLayerOf cfg k + (j : Int) ∧ thickAt cfg (firstLayerOf cfg k + (j : Int)) = 2 * r.hthick ∧
      r.zz = zFrontOf cfg k + layerSum cfg (firstLayerOf cfg k) j + r.hthick := by
  obtain ⟨_, hz, hlm, _, _, ⟨c, _, _, _, hlys, _⟩, hpos, hl⟩ := hb
  have hmem : r ∈ b.layers := List.getElem?_mem hr
  obtain ⟨_, _, _, _, hty, hth, _⟩ := hl r hmem
  have hly : r.ly = firstLayerOf cfg k + (j : Int) := by
    have h1 : (b.layers.map (fun r => r.ly))[j]? = some r.ly := by
      rw [List.getElem?_map, hr]; rfl
    rw [hlys, List.getElem?_map] at h1
    cases h2 : (List.range c.toNat)[j]? with
    | none => rw [h2] at h1; simp at h1
    | some m =>
      rw [h2] at h1
      obtain ⟨_, hm⟩ := List.getElem?_eq_some.1 h2
      rw [List.getElem_range] at hm
      subst hm
      simp only [Option.map_some', Option.some.injEq] at h1
      rw [← h1, hlm]
  refine ⟨hly, ?_, ?_⟩
  · rw [← hly, thickAt, hty]
    simp [hth]
  · rw [hpos j r hr, hz, hlm]

/-- C18: within block `i` the `j`-th layer is centred at `z_front(i)` plus the thicknesses of
the block's earlier layers plus half its own thickness; so the back face of a layer is the
front face of the next, the first layer's front face is at `z_front(i)`, and when the layer
thicknesses sum to the declared block thickness the last layer's back face is at
`z_back(i)`. There is one block record per entry of `layers_`, holding `layers_[i]` layers. -/
theorem constructLayers_layers_contiguous (cfg : Config) (cn : List Int)
    (h : WellFormed cfg cn) :
    ∃ out, constructLayers cfg cn = some out ∧
      (∀ (i : Nat) (b : BlockRecord), out.blocks[i]? = some b →
        (∀ (j : Nat) (r : LayerRecord), b.layers[j]? = some r →
          2 * r.hthick = thickAt cfg (firstLayerOf cfg i + (j : Int)) ∧
          r.zz = zFrontOf cfg i + layerSum cfg (firstLayerOf cfg i) j + r.hthick) ∧
        (∀ (j : Nat) (r r' : LayerRecord), b.layers[j]? = some r → b.layers[j + 1]? = some r' →
          r.zz + r.hthick = r'.zz - r'.hthick) ∧
        (∀ r : LayerRecord, b.layers[0]? = some r → r.zz - r.hthick = zFrontOf cfg i) ∧
        (∀ (c : Int) (d : ℚ) (r : LayerRecord), cfg.layers_[i]? = some c →
          cfg.layerThick_[i]? = some d → b.layers[c.toNat - 1]? = some r →
          layerSum cfg (firstLayerOf cfg i) c.toNat = d →
          r.zz + r.hthick = zFrontOf cfg i + d ∧ b.zo = zFrontOf cfg i + d)) ∧
      out.blocks.length = cfg.layers_.length ∧
      ∀ (i : Nat) (b : BlockRecord) (c : Int), out.blocks[i]? = some b →
        cfg.layers_[i]? = some c → b.layers.length = c.toNat := by
  obtain ⟨out, ho, hlen, _, _, _, _, hfacts⟩ := constructLayers_spec cfg cn h
  refine ⟨out, ho, ?_, hlen, ?_⟩
  swap
  · intro i b c hb hc
    obtain ⟨_, _, _, _, _, ⟨c', hc', _, _, hlys, _⟩, _, _⟩ := hfacts i b hb
    rw [hc] at hc'
    injection hc' with hc'
    subst hc'
    have := congrArg List.length hlys
    simpa using this
  intro i b hb
  have hbf := hfacts i b hb
  refine ⟨?_, ?_, ?_, ?_⟩
  · intro j r hr
    obtain ⟨_, h2, h3⟩ := layer_thickness cfg i b hbf j r hr
    exact ⟨h2.symm, h3⟩
  · intro j r r' hr hr'
    obtain ⟨_, h2, h3⟩ := layer_thickness cfg i b hbf j r hr
    obtain ⟨_, _, h3'⟩ := layer_thickness cfg i b hbf (j + 1) r' hr'
    rw [h3, h3', layerSum_succ, h2]
    ring
  · intro r hr
    obtain ⟨_, _, h3⟩ := layer_thickness cfg i b hbf 0 r hr
    rw [h3, layerSum_zero]
    ring
  · intro c d r hc hd hr hsum
    obtain ⟨_, h2, h3⟩ := layer_thickness cfg i b hbf (c.toNat - 1) r hr
    obtain ⟨_, hz, _, _, ⟨d', hd', hzo, _⟩, ⟨c', hc', _, _, hlys, _⟩, _, _⟩ := hbf
    rw [hd] at hd'
    injection hd' with hd'
    subst hd'
    rw [hc] at hc'
    injection hc' with hc'
    subst hc'
    have hpos : 0 < c.toNat := by
      have hlt := (List.getElem?_eq_some.1 hr).1
      have hlen : b.layers.length = c.toNat := by
        have := congrArg List.length hlys
        simpa using this
      omega
    have hsucc : c.toNat = (c.toNat - 1) + 1 := by omega
    refine ⟨?_, by rw [hzo, hz]⟩
    rw [h3, ← hsum]
    conv_rhs => rw [hsucc, layerSum_succ, h2]
    ring

/-- Witness of `constructLayers_layers_contiguous` at `scenario`: block 0 has two layers,
the first with its front face at z = 320 and its back face at the front face of the second. -/
theorem constructLayers_layers_contiguous_witness :
    ∃ (out : BuildResult) (b : BlockRecord) (r r' : LayerRecord),
      constructLayers scenario [1, 1] = some out ∧ out.blocks[0]? = some b ∧
      b.layers[0]? = some r ∧ b.layers[1]? = some r' ∧ r.zz - r.hthick = 320 ∧
      r.zz + r.hthick = r'.zz - r'.hthick := by
  obtain ⟨out, ho, hb, hlen, hcount⟩ :=
    constructLayers_layers_contiguous scenario [1, 1] (by decide)
  have h0 : 0 < out.blocks.length := by rw [hlen]; decide
  have hb0 : out.blocks[0]? = some out.blocks[0] := List.getElem?_eq_getElem h0
  have hl : out.blocks[0].layers.length = 2 := hcount 0 _ 2 hb0 rfl
  have hr0 : out.blocks[0].layers[0]? = some out.blocks[0].layers[0] :=
    List.getElem?_eq_getElem (by omega)
  have hr1 : out.blocks[0].layers[1]? = some out.blocks[0].layers[1] :=
    List.getElem?_eq_getElem (by omega)
  obtain ⟨_, hnext, hfirst, _⟩ := hb 0 _ hb0
  refine ⟨out, _, _, _, ho, hb0, hr0, hr1, ?_, hnext 0 _ _ hr0 hr1⟩
  rw [hfirst _ hr0]
  simp [zFrontOf, scenario]

/-- C19: under `WellFormed` every element access of `constructLayers`, `rMax` and
`positionSensitive` is inside its vector: each of them returns a result (a value `none`
would mark an access outside a vector). -/
theorem build_accesses_in_bounds (cfg : Config) (cn : List Int) (h : WellFormed cfg cn) :
    (∃ out, constructLayers cfg cn = some out) ∧
    (∀ z : ℚ, ∃ r, rMax cfg z = some r) ∧
    (∀ (rin rout : ℚ) (layertype : Int), ∃ w, positionSensitive cfg rin rout layertype = some w) := by
  refine ⟨?_, ?_, ?_⟩
  · obtain ⟨out, ho, _⟩ := constructLayers_spec cfg cn h
    exact ⟨out, ho⟩
  · intro z
    exact rMax_isSome cfg z h.2.2.2.2.2.2.2.2.2.1 h.2.2.2.2.2.2.2.2.2.2.1
  · intro rin rout layertype
    exact ⟨_, positionSensitive_eq cfg rin rout layertype h.2.2.2.2.2.2.2.2.2.2.2⟩

/-- Witness of `build_accesses_in_bounds` at `scenario`. -/
theorem build_accesses_in_bounds_witness :
    (∃ out, constructLayers scenario [1, 1] = some out) ∧
    (∀ z : ℚ, ∃ r, rMax scenario z = some r) ∧
    (∀ (rin rout : ℚ) (layertype : Int),
      ∃ w, positionSensitive scenario rin rout layertype = some w) :=
  build_accesses_in_bounds scenario [1, 1] (by decide)


/-! ## Initial copy numbers -/

theorem emplaceLoop_eq (n : Nat) (cn : List Int) :
    emplaceLoop n cn = cn ++ List.replicate n 1 := by
  induction n generalizing cn with
  | zero => simp [emplaceLoop]
  | succ n ih =>
    rw [emplaceLoop, ih, List.append_assoc]
    congr 1

theorem firstLayerLoop_spec (layerType layerSense : List Int) (firstLayer : Int)
    (cn : List Int) (hS : layerType.length ≤ layerSense.length)
    (hT : ∀ t ∈ layerType, 0 ≤ t ∧ t < cn.length) (n i : Nat)
    (hi : i + n = layerType.length) :
    ((∀ (j : Nat) (s : Int), i ≤ j → j < layerType.length → layerSense[j]? = some s → s = 0) →
      firstLayerLoop layerType layerSense firstLayer n i cn = some cn) ∧
    (∀ (j : Nat) (s t : Int), i ≤ j → layerSense[j]? = some s → s ≠ 0 →
      layerType[j]? = some t →
      (∀ (j' : Nat) (s' : Int), i ≤ j' → j' < j → layerSense[j']? = some s' → s' = 0) →
      firstLayerLoop layerType layerSense firstLayer n i cn
        = some (cn.set t.toNat firstLayer)) := by
  induction n generalizing i with
  | zero =>
    constructor
    · intro _; rfl
    · intro j s t hij _ _ ht _
      have := (List.getElem?_eq_some.1 ht).1
      omega
  | succ n ih =>
    have hiT : i < layerType.length := by omega
    have e1 : layerSense[i]? = some layerSense[i] := List.getElem?_eq_getElem (by omega)
    have e2 : layerType[i]? = some layerType[i] := List.getElem?_eq_getElem hiT
    obtain ⟨ht0, htl⟩ := hT _ (List.getElem_mem hiT)
    obtain ⟨c, hc⟩ := idx_isSome cn layerType[i] ht0 htl
    obtain ⟨ih1, ih2⟩ := ih (i + 1) (by omega)
    by_cases hs : layerSense[i] = 0
    · have hloop : firstLayerLoop layerType layerSense firstLayer (n + 1) i cn
          = firstLayerLoop layerType layerSense firstLayer n (i + 1) cn := by
        simp [firstLayerLoop, e1, hs]
      constructor
      · intro hall
        rw [hloop]
        exact ih1 (fun j s hij hj hsj => hall j s (by omega) hj hsj)
      · intro j s t hij hsj hne htj hfirst
        rw [hloop]
        have hne' : j ≠ i := by
          intro h
          subst h
          rw [e1] at hsj
          injection hsj with hsj
          exact hne (hsj ▸ hs)
        exact ih2 j s t (by omega) hsj hne htj
          (fun j' s' h1 h2 h3 => hfirst j' s' (by omega) h2 h3)
    · have hloop : firstLayerLoop layerType layerSense firstLayer (n + 1) i cn
          = some (cn.set layerType[i].toNat firstLayer) := by
        simp [firstLayerLoop, e1, e2, hs, hc]
      constructor
      · intro hall
        exact absurd (hall i _ (le_refl _) hiT e1) hs
      · intro j s t hij hsj hne htj hfirst
        rw [hloop]
        have hji : j = i := by
          by_contra hne'
          exact hs (hfirst i _ (le_refl _) (by omega) e1)
        subst hji
        rw [e2] at htj
        injection htj with htj
        rw [htj]

/-- C11 (amended): after `initialize`, `copyNumber_` has one entry per material name; with
`firstLayer_ = (int) FirstLayer` (the argument truncated toward zero), all entries are 1 when
`firstLayer_ <= 0` or no layer is sensitive; otherwise the entry indexed by the material type
of the first layer with a nonzero sense flag is `firstLayer_`, and that entry alone is
overridden. -/
theorem initialise_copyNumber (nameSpace : String) (cosAlpha : ℚ) (a : Arguments)
    (hS : a.LayerType.length ≤ a.LayerSense.length)
    (hT : ∀ t ∈ dbl_to_int a.LayerType, 0 ≤ t ∧ t < a.MaterialNames.length) :
    ∃ m, initialise nameSpace cosAlpha a = some m ∧
      m.cfg.materials_ = a.MaterialNames ∧
      m.cfg.layerType_ = dbl_to_int a.LayerType ∧
      m.cfg.layerSense_ = dbl_to_int a.LayerSense ∧
      m.firstLayer_ = dblToInt a.FirstLayer ∧
      m.copyNumber_.length = m.cfg.materials_.length ∧
      ((m.firstLayer_ ≤ 0 ∨ ∀ (i : Nat) (s : Int), i < m.cfg.layerType_.length →
          m.cfg.layerSense_[i]? = some s → s = 0) →
        m.copyNumber_ = List.replicate m.cfg.materials_.length 1) ∧
      (0 < m.firstLayer_ → ∀ (i : Nat) (s t : Int), m.cfg.layerSense_[i]? = some s → s ≠ 0 →
        m.cfg.layerType_[i]? = some t →
        (∀ (j : Nat) (s' : Int), j < i → m.cfg.layerSense_[j]? = some s' → s' = 0) →
        m.copyNumber_ = (List.replicate m.cfg.materials_.length 1).set t.toNat m.firstLayer_ ∧
        m.copyNumber_[t.toNat]? = some m.firstLayer_ ∧
        ∀ k : Nat, k ≠ t.toNat → k < m.cfg.materials_.length → m.copyNumber_[k]? = some 1) := by
  have hlenS : (dbl_to_int a.LayerType).length ≤ (dbl_to_int a.LayerSense).length := by
    simpa [dbl_to_int] using hS
  have hT' : ∀ t ∈ dbl_to_int a.LayerType,
      0 ≤ t ∧ t < ((emplaceLoop a.MaterialNames.length []).length : Int) := by
    intro t ht
    rw [emplaceLoop_eq]
    simpa using hT t ht
  obtain ⟨s1, s2⟩ := firstLayerLoop_spec (dbl_to_int a.LayerType) (dbl_to_int a.LayerSense)
    (dblToInt a.FirstLayer) (emplaceLoop a.MaterialNames.length []) hlenS hT'
    (dbl_to_int a.LayerType).length 0 (by omega)
  have hrep : emplaceLoop a.MaterialNames.length [] = List.replicate a.MaterialNames.length 1 := by
    rw [emplaceLoop_eq]; rfl
  by_cases hf : dblToInt a.FirstLayer > 0
  · by_cases hall : ∀ (i : Nat) (s : Int), i < (dbl_to_int a.LayerType).length →
        (dbl_to_int a.LayerSense)[i]? = some s → s = 0
    · have hloop := s1 (fun j s _ hj hs => hall j s hj hs)
      refine ⟨_, by simp only [initialise, if_pos hf, hloop]; rfl, rfl, rfl, rfl, rfl, ?_, ?_, ?_⟩
      · simp [hrep]
      · intro _
        exact hrep
      · intro _ i s t hs hne ht _
        have hi := (List.getElem?_eq_some.1 ht).1
        exact absurd (hall i s hi hs) hne
    · push_neg at hall
      obtain ⟨i0, s0, hi0, hs0, hne0⟩ := hall
      -- the first sensitive layer
      have hex : ∃ i : Nat, ∃ s : Int, (dbl_to_int a.LayerSense)[i]? = some s ∧ s ≠ 0 :=
        ⟨i0, s0, hs0, hne0⟩
      classical
      let i1 := Nat.find hex
      obtain ⟨s1', hs1, hne1⟩ := Nat.find_spec hex
      have hmin : ∀ (j : Nat) (s' : Int), j < i1 → (dbl_to_int a.LayerSense)[j]? = some s' →
          s' = 0 := by
        intro j s' hj hsj
        by_contra hne
        exact Nat.find_min hex hj ⟨s', hsj, hne⟩
      have hi1 : i1 < (dbl_to_int a.LayerType).length := by
        have : i1 ≤ i0 := Nat.find_min' hex ⟨s0, hs0, hne0⟩
        omega
      have ht1 : (dbl_to_int a.LayerType)[i1]? = some (dbl_to_int a.LayerType)[i1] :=
        List.getElem?_eq_getElem hi1
      have hloop := s2 i1 s1' _ (Nat.zero_le _) hs1 hne1 ht1
        (fun j' s' _ h2 h3 => hmin j' s' h2 h3)
      obtain ⟨ht0, htl⟩ := hT _ (List.getElem_mem hi1)
      refine ⟨_, by simp only [initialise, if_pos hf, hloop]; rfl, rfl, rfl, rfl, rfl, ?_, ?_, ?_⟩
      · simp [hrep]
      · rintro (h | h)
        · exact absurd hf (not_lt.2 h)
        · exact absurd (h i1 s1' hi1 hs1) hne1
      · intro _ i s t hs hne ht hfirst
        have hii : i = i1 := by
          rcases Nat.lt_trichotomy i i1 with h | h | h
          · exact absurd (hmin i s h hs) hne
          · exact h
          · exact absurd (hfirst i1 s1' h hs1) hne1
        subst hii
        rw [ht1] at ht
        injection ht with ht
        have hlt : t.toNat < a.MaterialNames.length := by
          rw [← ht]; omega
        refine ⟨by simp only [hrep, ht], ?_, ?_⟩
        · simp only [hrep, ht]
          rw [List.getElem?_set]
          simp [hlt]
        · intro k hk hkl
          simp only [hrep, ht]
          rw [List.getElem?_set]
          have : ¬ t.toNat = k := fun h => hk h.symm
          simp [this, hkl]
  · refine ⟨_, by simp only [initialise, if_neg hf]; rfl, rfl, rfl, rfl, rfl, ?_, ?_, ?_⟩
    · simp [hrep]
    · intro _
      exact hrep
    · intro h
      exact absurd h hf

theorem sampleArguments_layerType : dbl_to_int sampleArguments.LayerType = [0, 1, 1] := by
  simp [dbl_to_int, dblToInt, sampleArguments]

theorem sampleArguments_layerSense : dbl_to_int sampleArguments.LayerSense = [0, 1, 1] := by
  simp [dbl_to_int, dblToInt, sampleArguments]

theorem sampleArguments_firstLayer : dblToInt sampleArguments.FirstLayer = 5 := by
  have h : sampleArguments.FirstLayer = ((5 : ℤ) : ℚ) := by norm_num [sampleArguments]
  rw [dblToInt, h, if_pos (by norm_num), Int.floor_intCast]

/-- Witness of `initialise_copyNumber` on `sampleArguments`: the first sensitive layer has
material type 1, so the counters are `[1, 5]`. -/
theorem initialise_copyNumber_witness :
    ∃ m, initialise "hgcal" 0.5 sampleArguments = some m ∧ m.copyNumber_ = [1, 5] := by
  obtain ⟨m, hm, hmat, hty, hse, hfl, _, _, hov⟩ := initialise_copyNumber "hgcal" 0.5
    sampleArguments (by decide)
    (by
      rw [sampleArguments_layerType]
      intro t ht
      simp only [List.mem_cons, List.mem_singleton, List.not_mem_nil, or_false] at ht
      have : sampleArguments.MaterialNames.length = 2 := rfl
      rw [this]
      rcases ht with h | h | h <;> subst h <;> decide)
  refine ⟨m, hm, ?_⟩
  rw [sampleArguments_firstLayer] at hfl
  rw [sampleArguments_layerType] at hty
  rw [sampleArguments_layerSense] at hse
  have h := (hov (by rw [hfl]; decide) 1 1 1 (by rw [hse]; rfl) (by decide) (by rw [hty]; rfl)
    (by
      intro j s' hj hs
      have hj0 : j = 0 := by omega
      subst hj0
      rw [hse] at hs
      simp at hs
      exact hs.symm)).1
  rw [h, hmat, hfl]
  rfl

theorem smallFirstLayer_firstLayer : dblToInt smallFirstLayer.FirstLayer = 0 := by
  have h : smallFirstLayer.FirstLayer = 9 / 10 := by norm_num [smallFirstLayer]
  rw [dblToInt, h, if_pos (by norm_num), Int.floor_eq_iff]
  norm_num

theorem fractionalFirstLayer_firstLayer : dblToInt fractionalFirstLayer.FirstLayer = 2 := by
  have h : fractionalFirstLayer.FirstLayer = 29 / 10 := by norm_num [fractionalFirstLayer]
  rw [dblToInt, h, if_pos (by norm_num), Int.floor_eq_iff]
  norm_num

/-- C11 (counterexample): with `FirstLayer` 0.9 (positive, and layer 1 is sensitive) no
counter is overridden: the counters are `[1, 1]`; with `FirstLayer` 2.9 the counter of the
first sensitive layer's type is 2, not 2.9. -/
theorem initialise_fractional_firstLayer :
    (0 < smallFirstLayer.FirstLayer ∧
      (dbl_to_int smallFirstLayer.LayerSense)[1]? = some 1 ∧
      ∃ m, initialise "hgcal" 0.5 smallFirstLayer = some m ∧ m.copyNumber_ = [1, 1]) ∧
    (0 < fractionalFirstLayer.FirstLayer ∧
      (dbl_to_int fractionalFirstLayer.LayerSense)[0]? = some 0 ∧
      (dbl_to_int fractionalFirstLayer.LayerSense)[1]? = some 1 ∧
      (dbl_to_int fractionalFirstLayer.LayerType)[1]? = some 1 ∧
      ∃ (m : Members) (c : Int), initialise "hgcal" 0.5 fractionalFirstLayer = some m ∧
        m.copyNumber_ = [1, 2] ∧
        m.copyNumber_[1]? = some c ∧ (c : ℚ) ≠ fractionalFirstLayer.FirstLayer) := by
  have hty : dbl_to_int sampleArguments.LayerType = [0, 1, 1] := sampleArguments_layerType
  have hse : dbl_to_int sampleArguments.LayerSense = [0, 1, 1] := sampleArguments_layerSense
  refine ⟨⟨by norm_num [smallFirstLayer], ?_, ?_⟩, ⟨by norm_num [fractionalFirstLayer], ?_, ?_, ?_, ?_⟩⟩
  · change (dbl_to_int sampleArguments.LayerSense)[1]? = some 1
    rw [hse]; rfl
  · unfold initialise
    simp only [smallFirstLayer_firstLayer]
    exact ⟨_, rfl, rfl⟩
  · change (dbl_to_int sampleArguments.LayerSense)[0]? = some 0
    rw [hse]; rfl
  · change (dbl_to_int sampleArguments.LayerSense)[1]? = some 1
    rw [hse]; rfl
  · change (dbl_to_int sampleArguments.LayerType)[1]? = some 1
    rw [hty]; rfl
  · have hloop : firstLayerLoop (dbl_to_int fractionalFirstLayer.LayerType)
        (dbl_to_int fractionalFirstLayer.LayerSense) 2
        (dbl_to_int fractionalFirstLayer.LayerType).length 0
        (emplaceLoop fractionalFirstLayer.MaterialNames.length []) = some [1, 2] := by
      change firstLayerLoop (dbl_to_int sampleArguments.LayerType)
        (dbl_to_int sampleArguments.LayerSense) 2
        (dbl_to_int sampleArguments.LayerType).length 0 (emplaceLoop 2 []) = some [1, 2]
      rw [hty, hse]
      rfl
    unfold initialise
    simp only [fractionalFirstLayer_firstLayer, hloop]
    exact ⟨_, 2, rfl, rfl, rfl, by norm_num [fractionalFirstLayer]⟩

end DDHGCalEEAlgo
